import Mathlib

/-!
Verification development for the fhir-package-installer package manager.

The definitions below are shallow embeddings of the TypeScript/JavaScript
source: `shallowParse` (src/shallowParse.js), the index-entry extractor,
the registry client (`getHttpOptions`, `fetchJson`, `fetchStream`,
`getTarballUrl`), and the install orchestrator
(`toPackageObject`, `cachePackage`, `getDependencies`, `install`,
`installLocalPackage`) of `FhirPackageInstaller` (src/index.ts).
File-system and network effects are modelled by explicit state passing
(an association list of cache entries) and oracles (a registry function),
with a request log recording network I/O.  The `while` loops of
`shallowParse` are embedded as structural recursions carrying a fuel
counter; a loop iteration always consumes at least one input character,
so with the fuel supplied at every call site (the length of the remaining
input) the fuel-exhausted branch is unreachable.
-/

namespace FPI

/-- A primitive (scalar) JSON value as produced by `shallowParse`.
JavaScript numbers are represented by their source lexeme (the string fed
to `Number(...)` in the code), which keeps the model exact and avoids
floating point. -/
inductive Prim where
  | str (s : String)
  | num (lexeme : String)
  | bool (b : Bool)
  | null
deriving DecidableEq, Repr

/-- The structural errors `shallowParse` can throw (`TypeError` for a
non-string input is outside the model: the embedded input type is already
`String`). Constructors mirror the `throw new SyntaxError(...)` sites. -/
inductive SyntaxErr where
  /-- `Input must be a JSON object`: trimmed text does not start with `{`
  and end with `}`. -/
  | notObject
  /-- `Expected key string at position i`. -/
  | expectedKey
  /-- `Expected ':' after key at position i`. -/
  | expectedColon
  /-- A string literal that `JSON.parse` rejects (unterminated, bad escape,
  raw control character). -/
  | badString
deriving DecidableEq, Repr

/-- The whitespace test `/\s/.test c` of the source, restricted to the
ASCII whitespace characters (space, tab, newline, carriage return,
vertical tab, form feed); the JavaScript class also matches some Unicode
space characters, which never occur in the inputs considered here. -/
def isWs (c : Char) : Bool :=
  c = ' ' ∨ c = '\t' ∨ c = '\n' ∨ c = '\r' ∨ c = Char.ofNat 11 ∨ c = Char.ofNat 12

/-- `while (/\s/.test(input[i])) i++` : drop leading whitespace. -/
def skipWs : List Char → List Char
  | [] => []
  | c :: rest => if isWs c then skipWs rest else c :: rest

/-- The backwards backslash count of the source (`let backslashes = 0; let
j = i - 1; while (input[j] === '\\') ...`): the processed prefix is carried
in reverse, so the backward walk is the leading-backslash count of that
reversed prefix. -/
def countBs : List Char → Nat
  | [] => 0
  | c :: rest => if c = '\\' then countBs rest + 1 else 0

/-- The quoted-string scanning loop (used for keys, string values and
strings inside skipped values): starting just after an opening quote,
advance until a quote preceded by an even number of backslashes.
Returns the raw content (escapes intact) and the input after the closing
quote, or `none` when the loop runs off the end of the input
(unterminated literal). `accRev` is the processed content in reverse. -/
def scanQuoted (accRev : List Char) : List Char → Option (List Char × List Char)
  | [] => none
  | c :: rest =>
    if c = '"' ∧ countBs accRev % 2 = 0 then some (accRev.reverse, rest)
    else scanQuoted (c :: accRev) rest

/-- Hexadecimal digit value, as understood by `JSON.parse` in `\uXXXX`. -/
def hexVal (c : Char) : Option Nat :=
  if c.isDigit then some (c.toNat - '0'.toNat)
  else if 'a' ≤ c ∧ c ≤ 'f' then some (c.toNat - 'a'.toNat + 10)
  else if 'A' ≤ c ∧ c ≤ 'F' then some (c.toNat - 'A'.toNat + 10)
  else none

/-- Embedding of `JSON.parse` applied to the quoted string literal sliced
out by the scanner (`value = JSON.parse(rawString)`): unescape the content
between the quotes. `none` models the `SyntaxError` thrown by `JSON.parse`
on a bad escape or a raw control character. A `\uXXXX` escape denoting a
UTF-16 surrogate is mapped through `Char.ofNat`; such escapes do not occur
in the inputs considered here. -/
def jsonUnescape : List Char → Option (List Char)
  | [] => some []
  | c :: rest =>
    if c = '\\' then
      match rest with
      | [] => none
      | e :: rest2 =>
        if e = '"' then (jsonUnescape rest2).map (fun l => '"' :: l)
        else if e = '\\' then (jsonUnescape rest2).map (fun l => '\\' :: l)
        else if e = '/' then (jsonUnescape rest2).map (fun l => '/' :: l)
        else if e = 'b' then (jsonUnescape rest2).map (fun l => Char.ofNat 8 :: l)
        else if e = 'f' then (jsonUnescape rest2).map (fun l => Char.ofNat 12 :: l)
        else if e = 'n' then (jsonUnescape rest2).map (fun l => '\n' :: l)
        else if e = 'r' then (jsonUnescape rest2).map (fun l => '\r' :: l)
        else if e = 't' then (jsonUnescape rest2).map (fun l => '\t' :: l)
        else if e = 'u' then
          match rest2 with
          | h1 :: h2 :: h3 :: h4 :: rest3 =>
            match hexVal h1, hexVal h2, hexVal h3, hexVal h4 with
            | some a, some b, some c', some d =>
              (jsonUnescape rest3).map
                (fun l => Char.ofNat (((a * 16 + b) * 16 + c') * 16 + d) :: l)
            | _, _, _, _ => none
          | _ => none
        else none
    else if c.toNat < 32 then none
    else (jsonUnescape rest).map (fun l => c :: l)

/-- The number character class `/[\dEe\+\-\.]/` of the value loop. -/
def isNumChar (c : Char) : Bool :=
  c.isDigit ∨ c = 'E' ∨ c = 'e' ∨ c = '+' ∨ c = '-' ∨ c = '.'

/-- `while (i < len && /[\dEe\+\-\.]/.test(input[i])) numStr += input[i++]`:
collect the numeral lexeme. -/
def scanNum (accRev : List Char) : List Char → List Char × List Char
  | [] => (accRev.reverse, [])
  | c :: rest =>
    if isNumChar c then scanNum (c :: accRev) rest
    else (accRev.reverse, c :: rest)

theorem scanQuoted_some_length {accRev l s r} (h : scanQuoted accRev l = some (s, r)) :
    r.length < l.length := by
  induction l generalizing accRev with
  | nil => simp [scanQuoted] at h
  | cons c rest ih =>
    rw [scanQuoted] at h
    split at h
    · cases h; simp
    · exact Nat.lt_trans (ih h) (by simp)

/-- The non-primitive value skip loop
(`while (i < len && stack.length > 0) ...`): bracket-depth counting with
strings skipped via the quote scanner. Returns the input remaining when
the stack empties, or `[]` when the input runs out first. One unit of
fuel is spent per iteration; since every iteration consumes at least one
character, fuel equal to the input length never runs out. -/
def skipBalanced (fuel : Nat) (stk : List Char) (input : List Char) : List Char :=
  match fuel, stk, input with
  | _, [], _ => input
  | _, _ :: _, [] => []
  | 0, _ :: _, _ :: _ => []
  | fuel + 1, top :: stkRest, c :: rest =>
    if c = '"' then
      match scanQuoted [] rest with
      | some (_, r) => skipBalanced fuel (top :: stkRest) r
      | none => []
    else if c = '{' ∨ c = '[' then skipBalanced fuel (c :: top :: stkRest) rest
    else if c = '}' ∧ top = '{' then skipBalanced fuel stkRest rest
    else if c = ']' ∧ top = '[' then skipBalanced fuel stkRest rest
    else skipBalanced fuel (top :: stkRest) rest

/-- The unknown-token skip
(`while (i < len && input[i] !== ',' && input[i] !== '}') i++`). -/
def skipUnknown : List Char → List Char
  | [] => []
  | c :: rest => if c = ',' ∨ c = '}' then c :: rest else skipUnknown rest

/-- The value-parsing block of the main loop, starting at the first
character of the value (whitespace already skipped). Returns the value —
`none` standing for JavaScript `undefined` (a skipped non-primitive) —
and the remaining input. -/
def parseValue : List Char → Except SyntaxErr (Option Prim × List Char)
  | [] => .ok (none, [])
  | c :: rest =>
    if c = '"' then
      match scanQuoted [] rest with
      | none => .error .badString
      | some (content, rest') =>
        match jsonUnescape content with
        | none => .error .badString
        | some cs => .ok (some (.str (String.mk cs)), rest')
    else if c.isDigit ∨ c = '-' then
      let (numStr, rest') := scanNum [] (c :: rest)
      .ok (some (.num (String.mk numStr)), rest')
    else if (c :: rest).take 4 = ['t', 'r', 'u', 'e'] then
      .ok (some (.bool true), (c :: rest).drop 4)
    else if (c :: rest).take 5 = ['f', 'a', 'l', 's', 'e'] then
      .ok (some (.bool false), (c :: rest).drop 5)
    else if (c :: rest).take 4 = ['n', 'u', 'l', 'l'] then
      .ok (some Prim.null, (c :: rest).drop 4)
    else if c = '{' ∨ c = '[' then
      .ok (none, skipBalanced rest.length [c] rest)
    else
      .ok (none, skipUnknown (c :: rest))

/-- `result[key] = value`: JavaScript object assignment — overwrite the
binding in place if the key is present, append otherwise. -/
def setPrim : List (String × Prim) → String → Prim → List (String × Prim)
  | [], k, v => [(k, v)]
  | (k', v') :: rest, k, v =>
    if k' = k then (k, v) :: rest else (k', v') :: setPrim rest k v

theorem skipWs_length_le (l : List Char) : (skipWs l).length ≤ l.length := by
  induction l with
  | nil => simp [skipWs]
  | cons c rest ih =>
    rw [skipWs]
    split
    · exact Nat.le_trans ih (by simp)
    · simp

theorem scanNum_length_le (accRev l : List Char) :
    (scanNum accRev l).2.length ≤ l.length := by
  induction l generalizing accRev with
  | nil => simp [scanNum]
  | cons c rest ih =>
    rw [scanNum]
    split
    · exact Nat.le_trans (ih _) (by simp)
    · simp

theorem skipBalanced_length_le (fuel : Nat) (stk input : List Char) :
    (skipBalanced fuel stk input).length ≤ input.length := by
  induction fuel generalizing stk input with
  | zero =>
    match stk, input with
    | [], _ => simp [skipBalanced]
    | _ :: _, [] => simp [skipBalanced]
    | _ :: _, _ :: _ => simp [skipBalanced]
  | succ fuel ih =>
    match stk, input with
    | [], _ => simp [skipBalanced]
    | _ :: _, [] => simp [skipBalanced]
    | top :: stkRest, c :: rest =>
      rw [skipBalanced]
      split
      · match hscan : scanQuoted [] rest with
        | some (s, r) =>
          simp only
          have h1 := scanQuoted_some_length hscan
          have h2 := ih (top :: stkRest) r
          simp
          omega
        | none => simp
      · split
        · exact Nat.le_trans (ih _ _) (by simp)
        · split
          · exact Nat.le_trans (ih _ _) (by simp)
          · split
            · exact Nat.le_trans (ih _ _) (by simp)
            · exact Nat.le_trans (ih _ _) (by simp)

theorem skipUnknown_length_le (l : List Char) : (skipUnknown l).length ≤ l.length := by
  induction l with
  | nil => simp [skipUnknown]
  | cons c rest ih =>
    rw [skipUnknown]
    split
    · simp
    · exact Nat.le_trans ih (by simp)

theorem parseValue_ok_length {l : List Char} {v r} (h : parseValue l = .ok (v, r)) :
    r.length ≤ l.length := by
  match l with
  | [] => simp [parseValue] at h; simp [h.2]
  | c :: rest =>
    rw [parseValue] at h
    split at h
    · split at h
      · exact absurd h (by simp)
      · split at h
        · exact absurd h (by simp)
        · simp at h
          have := scanQuoted_some_length (by assumption)
          simp [← h.2]; omega
    · split at h
      · simp at h
        have := scanNum_length_le [] (c :: rest)
        rw [← h.2]
        exact this
      · split at h
        · simp at h; rw [← h.2]; simp; omega
        · split at h
          · simp at h; rw [← h.2]; simp; omega
          · split at h
            · simp at h; rw [← h.2]; simp; omega
            · split at h
              · simp at h
                have := skipBalanced_length_le rest.length [c] rest
                rw [← h.2]; simp; omega
              · simp at h
                have := skipUnknown_length_le (c :: rest)
                rw [← h.2]; exact this

/-- The step following a parsed value: `if (input[i] === ',') i++`. -/
def dropComma : List Char → List Char
  | [] => []
  | c :: r => if c = ',' then r else c :: r

theorem dropComma_length_le (l : List Char) : (dropComma l).length ≤ l.length := by
  cases l with
  | nil => simp [dropComma]
  | cons c r =>
    rw [dropComma]
    split
    · simp
    · exact Nat.le_refl _

/-- The main key/value loop of `shallowParse` (`while (i < len - 1) ...`).
`input` is the text from just after the opening `{` (so the loop guard
`i < len - 1` reads: more than the final `}` remains); `acc` is the
`result` object built so far. One unit of fuel per iteration; every
iteration consumes at least one character, so fuel equal to the input
length never runs out. -/
def parsePairs (fuel : Nat) (acc : List (String × Prim)) (input : List Char) :
    Except SyntaxErr (List (String × Prim)) :=
  if input.length ≤ 1 then .ok acc
  else
    match fuel with
    | 0 => .ok acc
    | fuel + 1 =>
      match skipWs input with
      | '}' :: _ => .ok acc
      | '"' :: rest =>
        match scanQuoted [] rest with
        | none => .error .expectedColon
        | some (keyChars, rest2) =>
          match skipWs rest2 with
          | ':' :: rest4 =>
            match parseValue (skipWs rest4) with
            | .error e => .error e
            | .ok (v?, rest6) =>
              let acc' := match v? with
                | some v => setPrim acc (String.mk keyChars) v
                | none => acc
              parsePairs fuel acc' (dropComma (skipWs rest6))
          | _ => .error .expectedColon
      | _ => .error .expectedKey

/-- The JavaScript `String.prototype.trim` (restricted to the whitespace
set of `isWs`). -/
def trimWs (l : List Char) : List Char :=
  skipWs ((skipWs l.reverse).reverse)

/-- Embedding of `shallowParse` (src/shallowParse.js): scan a JSON object
text and return the mapping of top-level keys to primitive values, with
array- and object-valued keys dropped. Keys are taken raw (the source
builds them with `key += input[i]`, without unescaping). -/
def shallowParse (input : String) : Except SyntaxErr (List (String × Prim)) :=
  let t := trimWs input.toList
  match t with
  | '{' :: rest =>
    if t.getLast? = some '}' then parsePairs rest.length [] rest
    else .error .notObject
  | _ => .error .notObject

/-! ## Specification side for the structural scanner

A syntax tree of JSON values, with a canonical renderer producing the
object text fed to `shallowParse`. Numbers are carried as their lexeme
(matching `Prim.num`). -/

inductive JsonValue where
  | str (s : String)
  | num (lexeme : String)
  | bool (b : Bool)
  | null
  | arr (elems : List JsonValue)
  | obj (fields : List (String × JsonValue))
deriving Repr

/-- Canonical escape of one character inside a JSON string literal. -/
def escChar (c : Char) : List Char :=
  if c = '"' then ['\\', '"']
  else if c = '\\' then ['\\', '\\']
  else [c]

def escChars : List Char → List Char
  | [] => []
  | c :: rest => escChar c ++ escChars rest

mutual

/-- Canonical (whitespace-free) JSON rendering of a value. -/
def renderValue : JsonValue → List Char
  | .str s => '"' :: (escChars s.toList ++ ['"'])
  | .num l => l.toList
  | .bool true => ['t', 'r', 'u', 'e']
  | .bool false => ['f', 'a', 'l', 's', 'e']
  | .null => ['n', 'u', 'l', 'l']
  | .arr es => '[' :: (renderElems es ++ [']'])
  | .obj fs => '{' :: (renderFields fs ++ ['}'])

def renderElems : List JsonValue → List Char
  | [] => []
  | [v] => renderValue v
  | v :: rest => renderValue v ++ ',' :: renderElems rest

def renderFields : List (String × JsonValue) → List Char
  | [] => []
  | [(k, v)] => '"' :: (k.toList ++ '"' :: ':' :: renderValue v)
  | (k, v) :: rest =>
    ('"' :: (k.toList ++ '"' :: ':' :: renderValue v)) ++ ',' :: renderFields rest

end

/-- A character that may appear raw inside a JSON string literal or an
object key: not a quote, not a backslash, not a control character. -/
def plainChar (c : Char) : Bool :=
  c ≠ '"' ∧ c ≠ '\\' ∧ 32 ≤ c.toNat

/-- A numeral lexeme the scanner reads back exactly: nonempty, starting
with a digit or minus sign, all characters in the number class. Every
RFC 8259 numeral satisfies this. -/
def validNumLexeme (s : String) : Bool :=
  match s.toList with
  | [] => false
  | c :: rest => (c.isDigit ∨ c = '-') ∧ (c :: rest).all isNumChar

mutual

/-- Values covered by the correctness theorem: strings without raw control
characters (so the canonical escaper needs no `\uXXXX`), valid numerals,
and object keys made of plain characters, at every depth. -/
def WfValue : JsonValue → Bool
  | .str s => s.toList.all (fun c => 32 ≤ c.toNat)
  | .num l => validNumLexeme l
  | .bool _ => true
  | .null => true
  | .arr es => WfElems es
  | .obj fs => WfFields fs

def WfElems : List JsonValue → Bool
  | [] => true
  | v :: rest => WfValue v && WfElems rest

def WfFields : List (String × JsonValue) → Bool
  | [] => true
  | (k, v) :: rest => (k.toList.all plainChar && WfValue v) && WfFields rest

end

/-- The scalar reading of a value, when it has one. -/
def toPrim : JsonValue → Option Prim
  | .str s => some (.str s)
  | .num l => some (.num l)
  | .bool b => some (.bool b)
  | .null => some .null
  | .arr _ => none
  | .obj _ => none

/-- The top-level scalar fields of an object — what the scanner's contract
says it returns. -/
def scalarsOf (fields : List (String × JsonValue)) : List (String × Prim) :=
  fields.filterMap (fun kv => (toPrim kv.2).map (fun p => (kv.1, p)))

/-! ## Correctness lemmas for the scanner on rendered text -/

theorem escChars_append (l₁ l₂ : List Char) :
    escChars (l₁ ++ l₂) = escChars l₁ ++ escChars l₂ := by
  induction l₁ with
  | nil => simp [escChars]
  | cons c rest ih => simp [escChars, ih]

theorem escChars_plain {l : List Char} (h : ∀ c ∈ l, plainChar c) :
    escChars l = l := by
  induction l with
  | nil => simp [escChars]
  | cons c rest ih =>
    have hc := h c (by simp)
    simp [plainChar] at hc
    simp [escChars, escChar, hc.1, hc.2.1, ih (fun c hc => h c (by simp [hc]))]

theorem countBs_cons_ne {c : Char} (l : List Char) (h : c ≠ '\\') :
    countBs (c :: l) = 0 := by
  simp [countBs, h]

/-- The quote scanner consumes an escaped string body exactly, stopping at
the unescaped closing quote. -/
theorem scanQuoted_escChars (cs : List Char) :
    ∀ (acc rest : List Char), countBs acc % 2 = 0 →
      scanQuoted acc (escChars cs ++ '"' :: rest) =
        some (acc.reverse ++ escChars cs, rest) := by
  induction cs with
  | nil =>
    intro acc rest h
    simp [escChars, scanQuoted, h]
  | cons c cs ih =>
    intro acc rest h
    by_cases hq : c = '"'
    · subst hq
      have hesc : escChars ('"' :: cs) = '\\' :: '"' :: escChars cs := by
        rw [escChars]; rfl
      rw [hesc]
      simp only [List.cons_append, List.append_assoc]
      rw [scanQuoted]
      have h1 : ¬('\\' = '"' ∧ countBs acc % 2 = 0) := by simp
      rw [if_neg h1]
      rw [scanQuoted]
      have h2 : ¬('"' = '"' ∧ countBs ('\\' :: acc) % 2 = 0) := by
        simp [countBs, h]
        omega
      rw [if_neg h2]
      rw [ih ('"' :: '\\' :: acc) rest (by rw [countBs_cons_ne _ (by decide)])]
      simp
    · by_cases hb : c = '\\'
      · subst hb
        have hesc : escChars ('\\' :: cs) = '\\' :: '\\' :: escChars cs := by
          rw [escChars]; rfl
        rw [hesc]
        simp only [List.cons_append, List.append_assoc]
        rw [scanQuoted]
        have h1 : ¬('\\' = '"' ∧ countBs acc % 2 = 0) := by simp
        rw [if_neg h1]
        rw [scanQuoted]
        have h2 : ¬('\\' = '"' ∧ countBs ('\\' :: acc) % 2 = 0) := by simp
        rw [if_neg h2]
        have h3 : countBs ('\\' :: '\\' :: acc) % 2 = 0 := by
          simp [countBs, h]
          omega
        rw [ih ('\\' :: '\\' :: acc) rest h3]
        simp
      · have hesc : escChars (c :: cs) = c :: escChars cs := by
          rw [escChars, escChar, if_neg hq, if_neg hb]
          rfl
        rw [hesc]
        simp only [List.cons_append, List.append_assoc]
        rw [scanQuoted]
        rw [if_neg (by simp [hq])]
        rw [ih (c :: acc) rest (by rw [countBs_cons_ne _ hb])]
        simp

theorem jsonUnescape_escQuote (X : List Char) :
    jsonUnescape ('\\' :: '"' :: X) = (jsonUnescape X).map (fun l => '"' :: l) := by
  rw [jsonUnescape.eq_def]
  simp

theorem jsonUnescape_escBackslash (X : List Char) :
    jsonUnescape ('\\' :: '\\' :: X) = (jsonUnescape X).map (fun l => '\\' :: l) := by
  rw [jsonUnescape.eq_def]
  simp

theorem jsonUnescape_plain {c : Char} (hb : c ≠ '\\') (hc : 32 ≤ c.toNat)
    (X : List Char) :
    jsonUnescape (c :: X) = (jsonUnescape X).map (fun l => c :: l) := by
  rw [jsonUnescape.eq_def]
  simp only
  rw [if_neg hb, if_neg (by omega)]

/-- Unescaping inverts the canonical escaper on control-free content
(embeds `JSON.parse` on the literal the renderer produced). -/
theorem jsonUnescape_escChars (cs : List Char) (h : ∀ c ∈ cs, 32 ≤ c.toNat) :
    jsonUnescape (escChars cs) = some cs := by
  induction cs with
  | nil => simp [escChars, jsonUnescape]
  | cons c cs ih =>
    have hc := h c (by simp)
    have ih' := ih (fun c hc => h c (by simp [hc]))
    by_cases hq : c = '"'
    · subst hq
      have hesc : escChars ('"' :: cs) = '\\' :: '"' :: escChars cs := by
        rw [escChars]; rfl
      rw [hesc, jsonUnescape_escQuote, ih']
      rfl
    · by_cases hb : c = '\\'
      · subst hb
        have hesc : escChars ('\\' :: cs) = '\\' :: '\\' :: escChars cs := by
          rw [escChars]; rfl
        rw [hesc, jsonUnescape_escBackslash, ih']
        rfl
      · have hesc : escChars (c :: cs) = c :: escChars cs := by
          rw [escChars, escChar, if_neg hq, if_neg hb]
          rfl
        rw [hesc, jsonUnescape_plain hb hc, ih']
        rfl

/-- A character the bracket-skipper treats generically: advance, no stack
change, no string scan. -/
def genericChar (c : Char) : Bool :=
  c ≠ '"' ∧ c ≠ '{' ∧ c ≠ '[' ∧ c ≠ '}' ∧ c ≠ ']'

theorem skipBalanced_generic_cons {c : Char} (hg : genericChar c)
    (fuel : Nat) (top : Char) (stkRest rest : List Char) :
    skipBalanced (fuel + 1) (top :: stkRest) (c :: rest) =
      skipBalanced fuel (top :: stkRest) rest := by
  simp [genericChar] at hg
  rw [skipBalanced]
  rw [if_neg hg.1, if_neg (by simp [hg.2.1, hg.2.2.1]),
    if_neg (by simp [hg.2.2.2.1]), if_neg (by simp [hg.2.2.2.2])]

/-- The result of `skipBalanced` does not depend on the fuel, as long as
the fuel covers the input length (each iteration consumes at least one
character). -/
theorem skipBalanced_fuel_congr :
    ∀ (n : Nat) (input stk : List Char) (fuel fuel' : Nat), input.length ≤ n →
      input.length ≤ fuel → input.length ≤ fuel' →
      skipBalanced fuel stk input = skipBalanced fuel' stk input := by
  intro n
  induction n with
  | zero =>
    intro input stk fuel fuel' hn _ _
    have hi : input = [] := by cases input <;> simp_all
    subst hi
    cases stk <;> cases fuel <;> cases fuel' <;> simp [skipBalanced]
  | succ n ih =>
    intro input stk fuel fuel' hn hf hf'
    match stk, input with
    | [], _ => cases fuel <;> cases fuel' <;> simp [skipBalanced]
    | _ :: _, [] => cases fuel <;> cases fuel' <;> simp [skipBalanced]
    | top :: stkRest, c :: rest =>
      match fuel, fuel' with
      | 0, _ => simp at hf
      | _ + 1, 0 => simp at hf'
      | a + 1, b + 1 =>
        simp only [List.length_cons] at hn hf hf'
        rw [skipBalanced, skipBalanced]
        by_cases hq : c = '"'
        · rw [if_pos hq, if_pos hq]
          match hscan : scanQuoted [] rest with
          | some (s, r) =>
            simp only
            have hlen := scanQuoted_some_length hscan
            exact ih r _ a b (by omega) (by omega) (by omega)
          | none => simp
        · rw [if_neg hq, if_neg hq]
          by_cases h2 : c = '{' ∨ c = '['
          · rw [if_pos h2, if_pos h2]
            exact ih rest _ a b (by omega) (by omega) (by omega)
          · rw [if_neg h2, if_neg h2]
            by_cases h3 : c = '}' ∧ top = '{'
            · rw [if_pos h3, if_pos h3]
              exact ih rest _ a b (by omega) (by omega) (by omega)
            · rw [if_neg h3, if_neg h3]
              by_cases h4 : c = ']' ∧ top = '['
              · rw [if_pos h4, if_pos h4]
                exact ih rest _ a b (by omega) (by omega) (by omega)
              · rw [if_neg h4, if_neg h4]
                exact ih rest _ a b (by omega) (by omega) (by omega)

/-- Skipping a rendered string literal: one iteration, via the quote
scanner. -/
theorem skipBalanced_string (fuel : Nat) (top : Char) (stkRest : List Char)
    (cs rest : List Char) :
    skipBalanced (fuel + 1) (top :: stkRest) ('"' :: (escChars cs ++ '"' :: rest)) =
      skipBalanced fuel (top :: stkRest) rest := by
  rw [skipBalanced]
  rw [if_pos rfl]
  rw [scanQuoted_escChars cs [] rest (by simp [countBs])]

/-- Skipping a run of generic characters. -/
theorem skipBalanced_genList (l : List Char) :
    ∀ (rest : List Char) (fuel : Nat) (top : Char) (stkRest : List Char),
      (∀ c ∈ l, genericChar c) → (l ++ rest).length ≤ fuel →
      skipBalanced fuel (top :: stkRest) (l ++ rest) =
        skipBalanced rest.length (top :: stkRest) rest := by
  induction l with
  | nil =>
    intro rest fuel top stkRest _ hf
    simp at hf
    exact skipBalanced_fuel_congr fuel rest _ fuel rest.length hf hf (Nat.le_refl _)
  | cons c l ih =>
    intro rest fuel top stkRest hg hf
    match fuel with
    | 0 => simp at hf
    | fuel + 1 =>
      rw [List.cons_append, skipBalanced_generic_cons (hg c (by simp))]
      exact ih rest fuel top stkRest (fun c hc => hg c (by simp [hc])) (by simp at hf ⊢; omega)

example : skipBalanced 7 ['['] ('1' :: ',' :: '2' :: ']' :: 'x' :: []) = ['x'] := by rfl

theorem validNumLexeme_all {s : String} (h : validNumLexeme s = true) :
    ∀ x ∈ s.toList, isNumChar x = true := by
  unfold validNumLexeme at h
  cases hl : s.toList with
  | nil => rw [hl] at h; simp at h
  | cons c cs =>
    rw [hl] at h
    simp only [decide_eq_true_eq] at h
    intro x hx
    have h2 := h.2
    simp only [List.all_eq_true] at h2
    exact h2 x hx

theorem isNumChar_generic {c : Char} (h : isNumChar c = true) : genericChar c = true := by
  simp only [isNumChar, Bool.or_eq_true, decide_eq_true_eq] at h
  simp only [genericChar, Bool.and_eq_true, bne_iff_ne, ne_eq, decide_eq_true_eq]
  rcases h with h | h | h | h | h | h
  · refine ⟨?_, ?_, ?_, ?_, ?_⟩ <;> rintro rfl <;> simp [Char.isDigit] at h
  all_goals subst h; decide

mutual

/-- Skipping the canonical rendering of a wellformed value consumes it
exactly. -/
theorem skipRenderValue (v : JsonValue) :
    ∀ (top : Char) (stkRest rest : List Char) (fuel : Nat),
      WfValue v = true → (renderValue v ++ rest).length ≤ fuel →
      skipBalanced fuel (top :: stkRest) (renderValue v ++ rest) =
        skipBalanced rest.length (top :: stkRest) rest := by
  intro top stkRest rest fuel hwf hf
  match v with
  | .str s =>
    simp only [renderValue, List.cons_append, List.append_assoc,
      List.singleton_append] at hf ⊢
    match fuel with
    | 0 => simp at hf
    | fuel + 1 =>
      rw [skipBalanced_string]
      simp only [List.length_cons, List.length_append] at hf
      exact skipBalanced_fuel_congr fuel rest _ fuel rest.length (by omega) (by omega)
        (Nat.le_refl _)
  | .num l =>
    simp only [WfValue] at hwf
    simp only [renderValue] at hf ⊢
    exact skipBalanced_genList _ rest fuel top stkRest
      (fun x hx => isNumChar_generic (validNumLexeme_all hwf x hx)) hf
  | .bool true =>
    simp only [renderValue] at hf ⊢
    exact skipBalanced_genList _ rest fuel top stkRest (by decide) hf
  | .bool false =>
    simp only [renderValue] at hf ⊢
    exact skipBalanced_genList _ rest fuel top stkRest (by decide) hf
  | .null =>
    simp only [renderValue] at hf ⊢
    exact skipBalanced_genList _ rest fuel top stkRest (by decide) hf
  | .arr es =>
    simp only [WfValue] at hwf
    simp only [renderValue, List.cons_append, List.append_assoc,
      List.singleton_append, List.nil_append] at hf ⊢
    match fuel with
    | 0 => simp at hf
    | fuel + 1 =>
      rw [skipBalanced]
      rw [if_neg (by decide), if_pos (by decide)]
      rw [skipRenderElems es '[' (top :: stkRest) (']' :: rest) fuel hwf
        (by simp at hf ⊢; omega)]
      rw [List.length_cons, skipBalanced]
      rw [if_neg (by decide), if_neg (by decide), if_neg (by decide), if_pos (by decide)]
  | .obj fs =>
    simp only [WfValue] at hwf
    simp only [renderValue, List.cons_append, List.append_assoc,
      List.singleton_append, List.nil_append] at hf ⊢
    match fuel with
    | 0 => simp at hf
    | fuel + 1 =>
      rw [skipBalanced]
      rw [if_neg (by decide), if_pos (by decide)]
      rw [skipRenderFields fs '{' (top :: stkRest) ('}' :: rest) fuel hwf
        (by simp at hf ⊢; omega)]
      rw [List.length_cons, skipBalanced]
      rw [if_neg (by decide), if_neg (by decide), if_pos (by decide)]
  termination_by sizeOf v

/-- Skipping a rendered comma-separated element list. -/
theorem skipRenderElems (es : List JsonValue) :
    ∀ (top : Char) (stkRest rest : List Char) (fuel : Nat),
      WfElems es = true → (renderElems es ++ rest).length ≤ fuel →
      skipBalanced fuel (top :: stkRest) (renderElems es ++ rest) =
        skipBalanced rest.length (top :: stkRest) rest := by
  intro top stkRest rest fuel hwf hf
  match es with
  | [] =>
    simp only [renderElems, List.nil_append] at hf ⊢
    exact skipBalanced_fuel_congr fuel rest _ fuel rest.length hf hf (Nat.le_refl _)
  | [v] =>
    simp only [WfElems, WfValue, Bool.and_eq_true] at hwf
    simp only [renderElems] at hf ⊢
    exact skipRenderValue v top stkRest rest fuel hwf.1 hf
  | v :: b :: t =>
    simp only [WfElems, Bool.and_eq_true] at hwf
    simp only [renderElems, List.append_assoc, List.cons_append] at hf ⊢
    rw [skipRenderValue v top stkRest (',' :: (renderElems (b :: t) ++ rest)) fuel
      hwf.1 (by simpa using hf)]
    rw [List.length_cons, skipBalanced_generic_cons (by decide)]
    refine skipRenderElems (b :: t) top stkRest rest _ ?_ (Nat.le_refl _)
    simp only [WfElems, Bool.and_eq_true]
    exact hwf.2
  termination_by sizeOf es

/-- Skipping a rendered field list of a nested object. -/
theorem skipRenderFields (fs : List (String × JsonValue)) :
    ∀ (top : Char) (stkRest rest : List Char) (fuel : Nat),
      WfFields fs = true → (renderFields fs ++ rest).length ≤ fuel →
      skipBalanced fuel (top :: stkRest) (renderFields fs ++ rest) =
        skipBalanced rest.length (top :: stkRest) rest := by
  intro top stkRest rest fuel hwf hf
  match fs with
  | [] =>
    simp only [renderFields, List.nil_append] at hf ⊢
    exact skipBalanced_fuel_congr fuel rest _ fuel rest.length hf hf (Nat.le_refl _)
  | [(k, v)] =>
    simp only [WfFields, Bool.and_eq_true, List.all_eq_true] at hwf
    simp only [renderFields, List.cons_append, List.append_assoc] at hf ⊢
    match fuel with
    | 0 => simp at hf
    | fuel + 1 =>
      rw [skipBalanced, if_pos rfl]
      rw [show k.toList ++ '"' :: ':' :: (renderValue v ++ rest) =
        escChars k.toList ++ '"' :: (':' :: (renderValue v ++ rest)) from by
        rw [escChars_plain hwf.1.1]]
      rw [scanQuoted_escChars k.toList [] _ (by simp [countBs])]
      simp only
      match hfuel2 : fuel with
      | 0 => exfalso; simp only [List.length_cons, List.length_append] at hf; omega
      | fuel2 + 1 =>
        rw [skipBalanced_generic_cons (by decide)]
        refine skipRenderValue v top stkRest rest fuel2 hwf.1.2 ?_
        simp at hf ⊢
        omega
  | (k, v) :: g :: t =>
    simp only [WfFields, Bool.and_eq_true, List.all_eq_true] at hwf
    simp only [renderFields, List.cons_append, List.append_assoc] at hf ⊢
    match fuel with
    | 0 => simp at hf
    | fuel + 1 =>
      rw [skipBalanced, if_pos rfl]
      rw [show k.toList ++ '"' :: ':' :: (renderValue v ++
          ',' :: (renderFields (g :: t) ++ rest)) =
        escChars k.toList ++ '"' :: (':' :: (renderValue v ++
          ',' :: (renderFields (g :: t) ++ rest))) from by
        rw [escChars_plain hwf.1.1]]
      rw [scanQuoted_escChars k.toList [] _ (by simp [countBs])]
      simp only
      match hfuel2 : fuel with
      | 0 => exfalso; simp only [List.length_cons, List.length_append] at hf; omega
      | fuel2 + 1 =>
        rw [skipBalanced_generic_cons (by decide)]
        rw [skipRenderValue v top stkRest (',' :: (renderFields (g :: t) ++ rest)) fuel2
          hwf.1.2 (by simp at hf ⊢; omega)]
        rw [List.length_cons, skipBalanced_generic_cons (by decide)]
        refine skipRenderFields (g :: t) top stkRest rest _ ?_ (Nat.le_refl _)
        simp only [WfFields, Bool.and_eq_true, List.all_eq_true]
        exact hwf.2
  termination_by sizeOf fs

end

theorem String.mk_toList (s : String) : String.mk s.toList = s := rfl

theorem skipWs_cons_not {c : Char} (h : isWs c = false) (l : List Char) :
    skipWs (c :: l) = c :: l := by
  rw [skipWs, h]
  simp

theorem skipWs_ws_append {ws : List Char} (h : ∀ x ∈ ws, isWs x = true) (l : List Char) :
    skipWs (ws ++ l) = skipWs l := by
  induction ws with
  | nil => simp
  | cons c rest ih =>
    rw [List.cons_append, skipWs, h c (by simp)]
    simp only [if_true]
    exact ih (fun x hx => h x (by simp [hx]))

theorem scanNum_lexeme (lex : List Char) :
    ∀ (accRev tail : List Char), (∀ c ∈ lex, isNumChar c = true) →
      (∀ c, tail.head? = some c → isNumChar c = false) →
      scanNum accRev (lex ++ tail) = (accRev.reverse ++ lex, tail) := by
  induction lex with
  | nil =>
    intro accRev tail _ ht
    cases tail with
    | nil => simp [scanNum]
    | cons c r =>
      rw [List.nil_append, scanNum, ht c rfl]
      simp
  | cons c l ih =>
    intro accRev tail hl ht
    rw [List.cons_append, scanNum, hl c (by simp)]
    simp only [if_true]
    rw [ih (c :: accRev) tail (fun x hx => hl x (by simp [hx])) ht]
    simp

theorem setPrim_append {acc : List (String × Prim)} {k : String}
    (h : ∀ kv ∈ acc, kv.1 ≠ k) (p : Prim) :
    setPrim acc k p = acc ++ [(k, p)] := by
  induction acc with
  | nil => simp [setPrim]
  | cons kv rest ih =>
    rw [setPrim.eq_def]
    simp only
    rw [if_neg (h kv (by simp))]
    rw [ih (fun kv hkv => h kv (by simp [hkv]))]
    simp

/-- The first character of a wellformed value's rendering: never
whitespace. -/
theorem renderValue_head {v : JsonValue} (hwf : WfValue v = true) :
    ∃ c r, renderValue v = c :: r ∧ isWs c = false := by
  match v with
  | .str s => exact ⟨'"', _, by rw [renderValue], by decide⟩
  | .num l =>
    simp only [WfValue] at hwf
    unfold validNumLexeme at hwf
    cases hl : l.toList with
    | nil => rw [hl] at hwf; simp at hwf
    | cons c cs =>
      rw [hl] at hwf
      simp only [decide_eq_true_eq] at hwf
      refine ⟨c, cs, by rw [renderValue, hl], ?_⟩
      rcases hwf.1 with h | h
      · cases hws : isWs c
        · rfl
        · exfalso
          simp [isWs] at hws
          rcases hws with rfl | rfl | rfl | rfl | rfl | rfl <;> simp [Char.isDigit] at h
      · subst h; rfl
  | .bool true => exact ⟨'t', _, by rw [renderValue], by decide⟩
  | .bool false => exact ⟨'f', _, by rw [renderValue], by decide⟩
  | .null => exact ⟨'n', _, by rw [renderValue], by decide⟩
  | .arr es => exact ⟨'[', _, by rw [renderValue], by decide⟩
  | .obj fs => exact ⟨'{', _, by rw [renderValue], by decide⟩

/-- The value block of the loop reads back a rendered value: a scalar
becomes its `Prim`, an array or object is skipped, and the input resumes
exactly at the value's end. -/
theorem parseValue_render (v : JsonValue) (tail : List Char)
    (hwf : WfValue v = true)
    (htail : tail.head? = some ',' ∨ tail.head? = some '}') :
    parseValue (renderValue v ++ tail) = .ok (toPrim v, tail) := by
  have htailnum : ∀ c, tail.head? = some c → isNumChar c = false := by
    intro c hc
    rcases htail with h | h <;> rw [hc] at h <;> injection h with h <;> subst h <;> decide
  match v with
  | .str s =>
    have hctrl : ∀ c ∈ s.toList, 32 ≤ c.toNat := by
      simp only [WfValue, List.all_eq_true, decide_eq_true_eq] at hwf
      exact hwf
    simp only [renderValue, List.cons_append, List.append_assoc, List.singleton_append,
      List.nil_append]
    rw [parseValue, if_pos rfl]
    rw [scanQuoted_escChars s.toList [] tail (by simp [countBs])]
    simp only [List.reverse_nil, List.nil_append]
    rw [jsonUnescape_escChars s.toList hctrl]
    simp [toPrim, String.mk_toList]
  | .num l =>
    simp only [WfValue] at hwf
    have hall := validNumLexeme_all hwf
    unfold validNumLexeme at hwf
    cases hl : l.toList with
    | nil => rw [hl] at hwf; simp at hwf
    | cons c cs =>
      rw [hl] at hwf hall
      simp only [decide_eq_true_eq] at hwf
      have hq : c ≠ '"' := by
        rintro rfl
        rcases hwf.1 with h | h
        · simp [Char.isDigit] at h
        · simp at h
      simp only [renderValue]
      rw [hl, List.cons_append, parseValue, if_neg hq]
      rw [if_pos hwf.1]
      simp only
      have hs := scanNum_lexeme (c :: cs) [] tail hall htailnum
      simp only [List.cons_append, List.reverse_nil, List.nil_append] at hs
      rw [hs]
      simp only [toPrim]
      rw [show String.mk (c :: cs) = l from by rw [← hl, String.mk_toList]]
  | .bool true =>
    simp only [renderValue, toPrim, List.cons_append]
    rw [parseValue, if_neg (by decide), if_neg (by decide), if_pos (by simp)]
    simp
  | .bool false =>
    simp only [renderValue, toPrim, List.cons_append]
    rw [parseValue, if_neg (by decide), if_neg (by decide),
      if_neg (by simp), if_pos (by simp)]
    simp
  | .null =>
    simp only [renderValue, toPrim, List.cons_append]
    rw [parseValue, if_neg (by decide), if_neg (by decide),
      if_neg (by simp), if_neg (by simp), if_pos (by simp)]
    simp
  | .arr es =>
    simp only [WfValue] at hwf
    simp only [renderValue, toPrim, List.cons_append, List.append_assoc,
      List.singleton_append, List.nil_append]
    rw [parseValue, if_neg (by decide), if_neg (by decide),
      if_neg (by simp), if_neg (by simp), if_neg (by simp), if_pos (by decide)]
    rw [skipRenderElems es '[' [] (']' :: tail) _ hwf (Nat.le_refl _)]
    rw [List.length_cons, skipBalanced]
    rw [if_neg (by decide), if_neg (by decide), if_neg (by decide), if_pos (by decide)]
    rw [show skipBalanced tail.length [] tail = tail from by rw [skipBalanced]]
  | .obj fs =>
    simp only [WfValue] at hwf
    simp only [renderValue, toPrim, List.cons_append, List.append_assoc,
      List.singleton_append, List.nil_append]
    rw [parseValue, if_neg (by decide), if_neg (by decide),
      if_neg (by simp), if_neg (by simp), if_neg (by simp), if_pos (by decide)]
    rw [skipRenderFields fs '{' [] ('}' :: tail) _ hwf (Nat.le_refl _)]
    rw [List.length_cons, skipBalanced]
    rw [if_neg (by decide), if_neg (by decide), if_pos (by decide)]
    rw [show skipBalanced tail.length [] tail = tail from by rw [skipBalanced]]

/-- One iteration of the key/value loop on a rendered field. -/
theorem parsePairs_step (k : String) (v : JsonValue) (tail : List Char)
    (acc : List (String × Prim)) (fuel : Nat)
    (hk : ∀ x ∈ k.toList, plainChar x = true)
    (hwf : WfValue v = true)
    (htail : tail.head? = some ',' ∨ tail.head? = some '}') :
    parsePairs (fuel + 1) acc ('"' :: (k.toList ++ '"' :: ':' :: (renderValue v ++ tail))) =
      parsePairs fuel
        (match toPrim v with
          | some p => setPrim acc (String.mk k.toList) p
          | none => acc)
        (dropComma tail) := by
  obtain ⟨ct, rt, htl⟩ : ∃ ct rt, tail = ct :: rt ∧ (ct = ',' ∨ ct = '}') := by
    cases tail with
    | nil => simp at htail
    | cons ct rt =>
      refine ⟨ct, rt, rfl, ?_⟩
      rcases htail with h | h <;> injection h with h <;> simp [h]
  have hskipv : skipWs (renderValue v ++ tail) = renderValue v ++ tail := by
    obtain ⟨c0, r0, hv, hws⟩ := renderValue_head hwf
    rw [hv, List.cons_append, skipWs_cons_not hws]
  have hskipt : skipWs tail = tail := by
    rw [htl.1]
    refine skipWs_cons_not ?_ _
    rcases htl.2 with h | h <;> subst h <;> decide
  rw [parsePairs]
  rw [if_neg (by simp)]
  simp only
  rw [skipWs_cons_not (by decide)]
  simp only
  rw [show k.toList ++ '"' :: ':' :: (renderValue v ++ tail) =
    escChars k.toList ++ '"' :: (':' :: (renderValue v ++ tail)) from by
    rw [escChars_plain hk]]
  rw [scanQuoted_escChars k.toList [] _ (by simp [countBs])]
  simp only [List.reverse_nil, List.nil_append]
  rw [skipWs_cons_not (by decide)]
  simp only
  rw [hskipv, parseValue_render v tail hwf htail]
  simp only
  rw [hskipt, escChars_plain hk]

/-- The key/value loop maps a rendered field list to the accumulated
scalar fields. -/
theorem parsePairs_render (fs : List (String × JsonValue)) :
    ∀ (acc : List (String × Prim)) (fuel : Nat),
      WfFields fs = true →
      (fs.map Prod.fst).Nodup →
      (∀ kv ∈ acc, kv.1 ∉ fs.map Prod.fst) →
      (renderFields fs ++ ['}']).length ≤ fuel →
      parsePairs fuel acc (renderFields fs ++ ['}']) = .ok (acc ++ scalarsOf fs) := by
  induction fs with
  | nil =>
    intro acc fuel _ _ _ _
    rw [parsePairs.eq_def]
    simp [renderFields, scalarsOf]
  | cons kv t ih =>
    obtain ⟨k, v⟩ := kv
    intro acc fuel hwf hnd hdisj hf
    have hwf' : ((∀ x ∈ k.toList, plainChar x = true) ∧ WfValue v = true) ∧
        WfFields t = true := by
      rw [WfFields.eq_def] at hwf
      cases t <;> simp_all
    cases t with
    | nil =>
      simp only [renderFields, List.cons_append, List.append_assoc,
        List.singleton_append, List.nil_append] at hf ⊢
      match fuel with
      | 0 => exfalso; simp at hf
      | fuel + 1 =>
        rw [parsePairs_step k v ['}'] acc fuel hwf'.1.1 hwf'.1.2 (by simp)]
        rw [show dropComma ['}'] = ['}'] from by simp [dropComma]]
        rw [String.mk_toList]
        rw [show parsePairs fuel
            (match toPrim v with
              | some p => setPrim acc k p
              | none => acc) ['}'] =
          .ok (match toPrim v with
              | some p => setPrim acc k p
              | none => acc) from by rw [parsePairs.eq_def]; simp]
        cases hp : toPrim v with
        | some p =>
          simp only
          rw [setPrim_append (fun kv hkv => by
            have := hdisj kv hkv
            simp at this
            exact this) p]
          simp [scalarsOf, hp]
        | none =>
          simp [scalarsOf, hp]
    | cons g t' =>
      rw [List.map_cons] at hnd
      have hnd' := List.nodup_cons.mp hnd
      have hdisj' : ∀ kv ∈ acc, kv.1 ∉ List.map Prod.fst (g :: t') := by
        intro kv hkv
        have h0 := hdisj kv hkv
        rw [List.map_cons, List.mem_cons] at h0
        push_neg at h0
        exact h0.2
      simp only [renderFields, List.cons_append, List.append_assoc,
        List.singleton_append, List.nil_append] at hf ⊢
      match fuel with
      | 0 => exfalso; simp only [List.length_cons, List.length_append] at hf; omega
      | fuel + 1 =>
        rw [parsePairs_step k v (',' :: (renderFields (g :: t') ++ ['}'])) acc fuel
          hwf'.1.1 hwf'.1.2 (by simp)]
        rw [show dropComma (',' :: (renderFields (g :: t') ++ ['}'])) =
          renderFields (g :: t') ++ ['}'] from by simp [dropComma]]
        rw [String.mk_toList]
        cases hp : toPrim v with
        | some p =>
          simp only
          rw [setPrim_append (fun kv hkv => by
            have h0 := hdisj kv hkv
            rw [List.map_cons, List.mem_cons] at h0
            push_neg at h0
            exact h0.1) p]
          rw [ih (acc ++ [(k, p)]) fuel hwf'.2 hnd'.2
            (by
              intro kv hkv
              rcases List.mem_append.mp hkv with hkv | hkv
              · exact hdisj' kv hkv
              · have hkvp : kv = (k, p) := by simpa using hkv
                rw [hkvp]
                exact hnd'.1)
            (by simp at hf ⊢; omega)]
          simp [scalarsOf, hp]
        | none =>
          simp only
          rw [ih acc fuel hwf'.2 hnd'.2 hdisj' (by simp at hf ⊢; omega)]
          simp [scalarsOf, hp]

theorem trimWs_brace (X : List Char) :
    trimWs ('{' :: (X ++ ['}'])) = '{' :: (X ++ ['}']) := by
  unfold trimWs
  rw [show ('{' :: (X ++ ['}'])).reverse = '}' :: (X.reverse ++ ['{']) from by simp]
  rw [skipWs_cons_not (by decide)]
  rw [show ('}' :: (X.reverse ++ ['{'])).reverse = '{' :: (X ++ ['}']) from by simp]
  rw [skipWs_cons_not (by decide)]

theorem getLast?_append_singleton (l : List Char) (a : Char) :
    (l ++ [a]).getLast? = some a :=
  List.getLast?_concat _

/-- The scanner on a canonically rendered object returns exactly the
scalar fields. -/
theorem shallowParse_render (fs : List (String × JsonValue))
    (hwf : WfFields fs = true) (hnd : (fs.map Prod.fst).Nodup) :
    shallowParse (String.mk ('{' :: (renderFields fs ++ ['}']))) = .ok (scalarsOf fs) := by
  rw [shallowParse]
  simp only [String.toList, trimWs_brace]
  rw [if_pos (by
    rw [show '{' :: (renderFields fs ++ ['}']) = ('{' :: renderFields fs) ++ ['}'] from rfl]
    exact getLast?_append_singleton _ _)]
  rw [parsePairs_render fs [] (renderFields fs ++ ['}']).length hwf hnd (by simp)
    (Nat.le_refl _)]
  simp

/-- The brace check of `shallowParse`: anything whose trimmed text does
not start with `{` and end with `}` is rejected. -/
theorem shallowParse_notObject (s : String)
    (h : (trimWs s.toList).head? ≠ some '{' ∨ (trimWs s.toList).getLast? ≠ some '}') :
    shallowParse s = .error .notObject := by
  rw [shallowParse]
  cases ht : trimWs s.toList with
  | nil => rfl
  | cons c rest =>
    by_cases hc : c = '{'
    · subst hc
      rcases h with h | h
      · rw [ht] at h
        simp at h
      · rw [ht] at h
        simp only
        rw [if_neg h]
    · split
      · rename_i rest' heq
        injection heq with h1 _
        exact absurd h1 hc
      · rfl

/-- After a key, a non-whitespace character other than `:` makes the loop
throw the colon error. -/
theorem parsePairs_colon_err (wsA wsB k r : List Char) (c : Char) :
    ∀ (acc : List (String × Prim)) (fuel : Nat),
      (∀ x ∈ wsA, isWs x = true) → (∀ x ∈ wsB, isWs x = true) →
      (∀ x ∈ k, plainChar x = true) →
      isWs c = false → c ≠ ':' → 1 ≤ fuel →
      parsePairs fuel acc (wsA ++ '"' :: (k ++ '"' :: (wsB ++ c :: r))) =
        .error .expectedColon := by
  intro acc fuel hA hB hk hcw hcn hfuel
  match fuel with
  | 0 => exact absurd hfuel (by simp)
  | fuel + 1 =>
    rw [parsePairs]
    rw [if_neg (by simp; omega)]
    simp only
    rw [skipWs_ws_append hA, skipWs_cons_not (by decide)]
    simp only
    rw [show k ++ '"' :: (wsB ++ c :: r) = escChars k ++ '"' :: (wsB ++ c :: r) from by
      rw [escChars_plain hk]]
    rw [scanQuoted_escChars k [] _ (by simp [countBs])]
    simp only [List.reverse_nil, List.nil_append]
    rw [skipWs_ws_append hB, skipWs_cons_not hcw]
    split
    · rename_i rest4 heq
      injection heq with h1 _
      exact absurd h1 hcn
    · rfl

theorem shallowParse_expectedColon (wsA wsB k r : List Char) (c : Char)
    (hA : ∀ x ∈ wsA, isWs x = true) (hB : ∀ x ∈ wsB, isWs x = true)
    (hk : ∀ x ∈ k, plainChar x = true)
    (hcw : isWs c = false) (hcn : c ≠ ':') :
    shallowParse (String.mk
        ('{' :: ((wsA ++ '"' :: (k ++ '"' :: (wsB ++ c :: r))) ++ ['}']))) =
      .error .expectedColon := by
  rw [shallowParse]
  simp only [String.toList, trimWs_brace]
  rw [if_pos (by
    rw [show '{' :: ((wsA ++ '"' :: (k ++ '"' :: (wsB ++ c :: r))) ++ ['}']) =
      ('{' :: (wsA ++ '"' :: (k ++ '"' :: (wsB ++ c :: r)))) ++ ['}'] from rfl]
    exact getLast?_append_singleton _ _)]
  rw [show (wsA ++ '"' :: (k ++ '"' :: (wsB ++ c :: r))) ++ ['}'] =
    wsA ++ '"' :: (k ++ '"' :: (wsB ++ c :: (r ++ ['}']))) from by
    simp [List.append_assoc]]
  exact parsePairs_colon_err wsA wsB k (r ++ ['}']) c [] _ hA hB hk hcw hcn
    (by simp; omega)

example : WfFields [("a", JsonValue.str "x"), ("b", JsonValue.arr [JsonValue.num "1"])] = true := by
  rfl

example : renderFields [("a", JsonValue.str "x")] = ['"', 'a', '"', ':', '"', 'x', '"'] := by
  rfl

example : shallowParse "\x7b\"a\" : 1\x7d" = .ok [("a", Prim.num "1")] := by rfl

/-- C6 (counterexample): three concrete inputs falsify the claim as
stated. In `{"a" : 1}` the key's closing quote is followed by a space
(character 4), not `:`, yet the scanner succeeds instead of throwing the
claimed structural error. In `{"a\"b":1}` the JSON object's key is `a"b`
but the returned mapping spells it raw, escape included. In
`{"a":1,"a":[2]}` the JSON object's (last-occurrence) value for `a` is an
array, which the claim says is dropped entirely, yet the key survives with
the earlier scalar. -/
theorem C6_counterexample :
    (shallowParse "\x7b\"a\" : 1\x7d" = .ok [("a", Prim.num "1")] ∧
      "\x7b\"a\" : 1\x7d".toList.get? 4 = some ' ') ∧
    (shallowParse "\x7b\"a\\\"b\":1\x7d" = .ok [("a\\\"b", Prim.num "1")] ∧
      ("a\\\"b" : String) ≠ "a\"b") ∧
    shallowParse "\x7b\"a\":1,\"a\":[2]\x7d" = .ok [("a", Prim.num "1")] := by
  refine ⟨⟨?_, ?_⟩, ⟨?_, ?_⟩, ?_⟩ <;> first | rfl | decide

/-- C6 (amended): over canonically rendered JSON objects (distinct keys of
plain characters, string contents without raw control characters, valid
numeral lexemes) the scanner returns exactly the top-level scalar fields —
string values faithfully unescaped, numbers, booleans and nulls kept,
arrays and nested objects dropped entirely. It fails with the structural
error when the trimmed input does not start with `{` and end with `}`, and
with the colon error when the first non-whitespace character after a key
is not `:`. -/
theorem C6_shallowParse_contract :
    (∀ fs : List (String × JsonValue), WfFields fs = true → (fs.map Prod.fst).Nodup →
      shallowParse (String.mk ('{' :: (renderFields fs ++ ['}']))) = .ok (scalarsOf fs)) ∧
    (∀ s : String,
      (trimWs s.toList).head? ≠ some '{' ∨ (trimWs s.toList).getLast? ≠ some '}' →
      shallowParse s = .error .notObject) ∧
    (∀ (wsA wsB k r : List Char) (c : Char), (∀ x ∈ wsA, isWs x = true) →
      (∀ x ∈ wsB, isWs x = true) → (∀ x ∈ k, plainChar x = true) →
      isWs c = false → c ≠ ':' →
      shallowParse (String.mk
        ('{' :: ((wsA ++ '"' :: (k ++ '"' :: (wsB ++ c :: r))) ++ ['}']))) =
        .error .expectedColon) :=
  ⟨shallowParse_render, shallowParse_notObject, shallowParse_expectedColon⟩

theorem C6_shallowParse_contract_witness :
    shallowParse "\x7b\"a\":\"x\",\"b\":[1],\"n\":2\x7d" =
      .ok [("a", Prim.str "x"), ("n", Prim.num "2")] ∧
    shallowParse "  [1,2]  " = .error .notObject ∧
    shallowParse "\x7b\"k\" ?\x7d" = .error .expectedColon := by
  obtain ⟨hA, hB, hC⟩ := C6_shallowParse_contract
  refine ⟨?_, ?_, ?_⟩
  · exact hA [("a", JsonValue.str "x"), ("b", JsonValue.arr [JsonValue.num "1"]),
      ("n", JsonValue.num "2")] (by rfl) (by decide)
  · exact hB "  [1,2]  " (Or.inl (by decide))
  · exact hC [] [' '] ['k'] [] '?' (by decide) (by decide) (by decide) (by decide)
      (by decide)

/-! ## Index entries (C7): `extractResourceIndexEntry` and persistence -/

/-- JavaScript property access `content.x` on the object produced by
`shallowParse` (keys are unique in a JS object). -/
def lookupPrim (content : List (String × Prim)) (k : String) : Option Prim :=
  match content with
  | [] => none
  | (k', v) :: rest => if k' = k then some v else lookupPrim rest k

/-- `const evalAttribute = (att) => (typeof att === 'string' ? att :
undefined)` — keep only string values. -/
def evalAttribute : Option Prim → Option String
  | some (.str s) => some s
  | _ => none

/-- The `FileInPackageIndex` object built by `extractResourceIndexEntry`;
`none` models a JavaScript `undefined` property. `resourceType` and `id`
are copied verbatim (whatever the scan produced), the rest go through
`evalAttribute`. -/
structure FileInPackageIndex where
  filename : String
  resourceType : Option Prim
  id : Option Prim
  url : Option String
  name : Option String
  version : Option String
  kind : Option String
  type : Option String
  supplements : Option String
  content : Option String
  baseDefinition : Option String
  derivation : Option String
  date : Option String
deriving DecidableEq, Repr

/-- Embedding of `extractResourceIndexEntry` (src/index.ts). -/
def extractResourceIndexEntry (filename : String) (content : List (String × Prim)) :
    FileInPackageIndex :=
  { filename := filename
    resourceType := lookupPrim content "resourceType"
    id := lookupPrim content "id"
    url := evalAttribute (lookupPrim content "url")
    name := evalAttribute (lookupPrim content "name")
    version := evalAttribute (lookupPrim content "version")
    kind := evalAttribute (lookupPrim content "kind")
    type := evalAttribute (lookupPrim content "type")
    supplements := evalAttribute (lookupPrim content "supplements")
    content := evalAttribute (lookupPrim content "content")
    baseDefinition := evalAttribute (lookupPrim content "baseDefinition")
    derivation := evalAttribute (lookupPrim content "derivation")
    date := evalAttribute (lookupPrim content "date") }

/-- A serialized optional string property: present only when defined
(`JSON.stringify` drops `undefined`-valued properties). -/
def optEntry (fieldName : String) : Option String → List (String × Prim)
  | some s => [(fieldName, Prim.str s)]
  | none => []

/-- A serialized property copied verbatim. -/
def primEntry (fieldName : String) : Option Prim → List (String × Prim)
  | some p => [(fieldName, p)]
  | none => []

/-- The properties `fs.writeJSON` (via `JSON.stringify`) persists for an
index entry: `undefined` properties are omitted. -/
def serializeIndexEntry (e : FileInPackageIndex) : List (String × Prim) :=
  [("filename", Prim.str e.filename)] ++
  primEntry "resourceType" e.resourceType ++
  primEntry "id" e.id ++
  optEntry "url" e.url ++
  optEntry "name" e.name ++
  optEntry "version" e.version ++
  optEntry "kind" e.kind ++
  optEntry "type" e.type ++
  optEntry "supplements" e.supplements ++
  optEntry "content" e.content ++
  optEntry "baseDefinition" e.baseDefinition ++
  optEntry "derivation" e.derivation ++
  optEntry "date" e.date

/-- The ten optional index-entry fields named by the claim. -/
def optFieldNames : List String :=
  ["url", "name", "version", "kind", "type", "supplements", "content",
   "baseDefinition", "derivation", "date"]

/-- Read the optional field of an entry by name. -/
def getOptField (e : FileInPackageIndex) (fieldName : String) : Option String :=
  if fieldName = "url" then e.url
  else if fieldName = "name" then e.name
  else if fieldName = "version" then e.version
  else if fieldName = "kind" then e.kind
  else if fieldName = "type" then e.type
  else if fieldName = "supplements" then e.supplements
  else if fieldName = "content" then e.content
  else if fieldName = "baseDefinition" then e.baseDefinition
  else if fieldName = "derivation" then e.derivation
  else if fieldName = "date" then e.date
  else none

theorem mem_optEntry {fieldName : String} {o : Option String} {kv : String × Prim} :
    kv ∈ optEntry fieldName o ↔ ∃ s, o = some s ∧ kv = (fieldName, Prim.str s) := by
  cases o <;> simp [optEntry]

theorem mem_primEntry {fieldName : String} {o : Option Prim} {kv : String × Prim} :
    kv ∈ primEntry fieldName o ↔ ∃ p, o = some p ∧ kv = (fieldName, p) := by
  cases o <;> simp [primEntry]

theorem evalAttribute_eq_some {o : Option Prim} {s : String} :
    evalAttribute o = some s ↔ o = some (Prim.str s) := by
  match o with
  | none => simp [evalAttribute]
  | some (.str t) => simp [evalAttribute]
  | some (.num t) => simp [evalAttribute]
  | some (.bool b) => simp [evalAttribute]
  | some .null => simp [evalAttribute]

theorem getOptField_extract (filename : String) (content : List (String × Prim))
    (fieldName : String) (hfn : fieldName ∈ optFieldNames) :
    getOptField (extractResourceIndexEntry filename content) fieldName =
      evalAttribute (lookupPrim content fieldName) := by
  fin_cases hfn <;> rfl

theorem mem_serialize_opt (e : FileInPackageIndex) (fieldName : String)
    (hfn : fieldName ∈ optFieldNames) (p : Prim) :
    (fieldName, p) ∈ serializeIndexEntry e ↔
      ∃ s, getOptField e fieldName = some s ∧ p = Prim.str s := by
  fin_cases hfn <;>
    simp [serializeIndexEntry, getOptField, mem_optEntry, mem_primEntry]

/-- C7 (counterexample): a top-level scalar that is not a string — here
`"date": 2020`, a JSON number — is dropped from the index entry, although
the claim says every scalar populates its field. -/
theorem C7_counterexample :
    lookupPrim [("resourceType", Prim.str "CodeSystem"), ("id", Prim.str "cs1"),
        ("date", Prim.num "2020")] "date" = some (Prim.num "2020") ∧
    (extractResourceIndexEntry "cs1.json"
      [("resourceType", Prim.str "CodeSystem"), ("id", Prim.str "cs1"),
        ("date", Prim.num "2020")]).date = none ∧
    "date" ∉ (serializeIndexEntry (extractResourceIndexEntry "cs1.json"
      [("resourceType", Prim.str "CodeSystem"), ("id", Prim.str "cs1"),
        ("date", Prim.num "2020")])).map Prod.fst := by
  refine ⟨rfl, rfl, ?_⟩
  decide

/-- C7 (amended): each of the ten optional index-entry fields is populated
exactly from a top-level *string* value of the same name in the source
file, and is omitted from the persisted entry — never set to null —
whenever that field is absent or not a string. -/
theorem C7_index_entry_fields (filename : String) (content : List (String × Prim))
    (fieldName : String) (hfn : fieldName ∈ optFieldNames) :
    (∀ s : String, lookupPrim content fieldName = some (Prim.str s) →
      (fieldName, Prim.str s) ∈
        serializeIndexEntry (extractResourceIndexEntry filename content)) ∧
    (∀ p : Prim, (fieldName, p) ∈
        serializeIndexEntry (extractResourceIndexEntry filename content) →
      lookupPrim content fieldName = some p ∧ ∃ s, p = Prim.str s) ∧
    (fieldName, Prim.null) ∉
      serializeIndexEntry (extractResourceIndexEntry filename content) := by
  have hget := getOptField_extract filename content fieldName hfn
  refine ⟨?_, ?_, ?_⟩
  · intro s hs
    rw [mem_serialize_opt _ _ hfn]
    refine ⟨s, ?_, rfl⟩
    rw [hget, hs]
    rfl
  · intro p hp
    rw [mem_serialize_opt _ _ hfn] at hp
    obtain ⟨s, hval, rfl⟩ := hp
    rw [hget] at hval
    exact ⟨evalAttribute_eq_some.mp hval, s, rfl⟩
  · intro hp
    rw [mem_serialize_opt _ _ hfn] at hp
    obtain ⟨s, _, hps⟩ := hp
    exact absurd hps (by simp)

theorem C7_index_entry_fields_witness :
    ("version", Prim.str "1.0.0") ∈
      serializeIndexEntry (extractResourceIndexEntry "a.json"
        [("resourceType", Prim.str "ValueSet"), ("version", Prim.str "1.0.0"),
          ("kind", Prim.bool true)]) ∧
    ("kind", Prim.bool true) ∉
      serializeIndexEntry (extractResourceIndexEntry "a.json"
        [("resourceType", Prim.str "ValueSet"), ("version", Prim.str "1.0.0"),
          ("kind", Prim.bool true)]) ∧
    ("kind", Prim.null) ∉
      serializeIndexEntry (extractResourceIndexEntry "a.json"
        [("resourceType", Prim.str "ValueSet"), ("version", Prim.str "1.0.0"),
          ("kind", Prim.bool true)]) := by
  have h1 := (C7_index_entry_fields "a.json"
    [("resourceType", Prim.str "ValueSet"), ("version", Prim.str "1.0.0"),
      ("kind", Prim.bool true)] "version" (by decide)).1 "1.0.0" (by rfl)
  have h2 := (C7_index_entry_fields "a.json"
    [("resourceType", Prim.str "ValueSet"), ("version", Prim.str "1.0.0"),
      ("kind", Prim.bool true)] "kind" (by decide)).2.1 (Prim.bool true)
  have h3 := (C7_index_entry_fields "a.json"
    [("resourceType", Prim.str "ValueSet"), ("version", Prim.str "1.0.0"),
      ("kind", Prim.bool true)] "kind" (by decide)).2.2
  refine ⟨h1, ?_, h3⟩
  intro hmem
  obtain ⟨_, ⟨s, hs⟩⟩ := h2 hmem
  exact absurd hs (by simp)

example : shallowParse "\x7b\"a\":\"x\",\"b\":[1,2],\"c\":true\x7d" =
    .ok [("a", Prim.str "x"), ("c", Prim.bool true)] := by rfl

example : shallowParse "  [1,2]  " = .error .notObject := by rfl

example : shallowParse "\x7b\"a\"\x7d" = .error .expectedColon := by rfl

/-! ## Registry client (C3, C4, C5)

`getHttpOptions`, `fetchJson`, `fetchStream` and `getTarballUrl` of
`FhirPackageInstaller`. The HTTP layer is an oracle `net : String →
HttpResponse`; every issued request is recorded in a log of
`(url, Authorization header)` pairs. -/

/-- A package identifier: `{ id, version }`. -/
structure PackageIdentifier where
  id : String
  version : String
deriving DecidableEq, Repr

/-- Embedding of `new URL(u).hostname` for well-formed absolute http(s)
URLs: the authority component (after `://`, before `/`, `?` or `#`), with
userinfo and port stripped. (The WHATWG parser also lowercases and
punycodes the host; the URLs considered here are already lowercase
ASCII.) -/
def afterSchemeChars : List Char → Option (List Char)
  | ':' :: '/' :: '/' :: rest => some rest
  | _ :: rest => afterSchemeChars rest
  | [] => none

def hostname (url : String) : String :=
  let afterScheme :=
    match afterSchemeChars url.toList with
    | some a => a
    | none => url.toList
  let authority := afterScheme.takeWhile (fun c => c ≠ '/' ∧ c ≠ '?' ∧ c ≠ '#')
  let hostPort := (authority.reverse.takeWhile (fun c => c ≠ '@')).reverse
  String.mk (hostPort.takeWhile (fun c => c ≠ ':'))

example : hostname "https://packages.fhir.org/pkg/-/x.tgz" = "packages.fhir.org" := by rfl

example : hostname "https://user:pw@host.example:8080/p" = "host.example" := by rfl

/-- `s.startsWith p` of JavaScript, on the character lists (the built-in
`String.startsWith` is not kernel-reducible). -/
def strStartsWith (s p : String) : Bool :=
  p.toList.isPrefixOf s.toList

/-- Embedding of `getHttpOptions`: the `Authorization` header attached to
a request for `url`, if any. The header is set when a token is configured
and the URL either extends the configured registry URL as a string or has
the same hostname. -/
def getHttpOptions (registryUrl : String) (registryToken : Option String)
    (url : String) : Option String :=
  match registryToken with
  | none => none
  | some token =>
    let registryHostname := hostname registryUrl
    let urlHostname := hostname url
    if strStartsWith url registryUrl ∨ urlHostname = registryHostname then
      some ("Bearer " ++ token)
    else none

/-- The `error` / `message` fields of the response body when it parses as
JSON. -/
structure ErrBody where
  error : Option String
  message : Option String
deriving DecidableEq, Repr

/-- An HTTP response as seen by the callback of `client.get`. `bodyJson`
embeds the outcome of `JSON.parse` on the collected body: `none` when the
body is not valid JSON, otherwise its `error`/`message` fields. -/
structure HttpResponse where
  status : Nat
  location : Option String
  body : String
  bodyJson : Option ErrBody
deriving Repr

/-- The failures of the registry client, one constructor per `reject` /
`throw` site. -/
inductive FetchErr where
  /-- `HTTP URLs not allowed. Use HTTPS or enable allowHttp for testing.` -/
  | httpNotAllowed
  /-- `Too many redirects (5) when fetching url` -/
  | tooManyRedirects (url : String)
  /-- `Authorization failed: ... (HTTP 403).` -/
  | authorizationFailed
  /-- `Authentication failed: ... (HTTP 401).` -/
  | authenticationFailed
  /-- `HTTP {status}: {msg}` — `fetchJson` on any other status ≥ 400. -/
  | httpError (status : Nat) (msg : String)
  /-- `Failed to fetch {url} (status {status})` — `fetchStream` on any
  non-200 final status. -/
  | streamStatusError (status : Nat) (url : String)
  /-- `Failed to parse JSON from {url}` -/
  | parseError (url : String)
deriving DecidableEq, Repr

/-- `errorData.error || errorData.message || data`, `||` being JavaScript
truthiness (an empty string falls through); when `JSON.parse(data)` threw,
the catch branch uses `data || 'Unknown error'`. -/
def errBodyMsg (r : HttpResponse) : String :=
  match r.bodyJson with
  | some eb =>
    match eb.error with
    | some e =>
      if e = "" then
        match eb.message with
        | some m => if m = "" then r.body else m
        | none => r.body
      else e
    | none =>
      match eb.message with
      | some m => if m = "" then r.body else m
      | none => r.body
  | none => if r.body = "" then "Unknown error" else r.body

/-- The status classification of `fetchJson` for a response with status
≥ 400 (the try and catch branches classify identically). -/
def classifyJsonError (r : HttpResponse) : FetchErr :=
  if r.status = 403 then .authorizationFailed
  else if r.status = 401 then .authenticationFailed
  else .httpError r.status (errBodyMsg r)

/-- A logged request: the URL and the `Authorization` header sent with
it. -/
def Request := String × Option String

/-- Embedding of `withRetries`: the wrapped operation is retried only when
the thrown error's `code` is a transient network code (`EAI_AGAIN`,
`ENOTFOUND`, `ECONNRESET`). None of the embedded failures carries such a
code and the network oracle is deterministic, so every attempt returns the
first attempt's result and the loop reduces to it. -/
def withRetries {α : Type} (attempt : Except FetchErr α × List Request) :
    Except FetchErr α × List Request :=
  attempt

/-- Embedding of `fetchJson`. `redirectsLeft` counts down from
`maxRedirects = 5` (the source counts `redirectCount` up;
`redirectsLeft = 5 - redirectCount`). On success the raw response body
stands for the parsed JSON document. The `withRetries` wrapper of the
source is the identity here (see `withRetries`) and is left implicit. -/
def fetchJson (net : String → HttpResponse) (allowHttp : Bool)
    (registryUrl : String) (registryToken : Option String) :
    Nat → String → Except FetchErr String × List Request
  | redirectsLeft, url =>
    if strStartsWith url "http:" ∧ ¬allowHttp then (.error .httpNotAllowed, [])
    else
      match (net url).location with
      | some loc =>
        if 300 ≤ (net url).status ∧ (net url).status < 400 then
          match redirectsLeft with
          | 0 => (.error (.tooManyRedirects url),
              [(url, getHttpOptions registryUrl registryToken url)])
          | rem + 1 =>
            match fetchJson net allowHttp registryUrl registryToken rem loc with
            | (res, log) =>
              (res, (url, getHttpOptions registryUrl registryToken url) :: log)
        else if 400 ≤ (net url).status then
          (.error (classifyJsonError (net url)),
            [(url, getHttpOptions registryUrl registryToken url)])
        else
          match (net url).bodyJson with
          | some _ => (.ok (net url).body,
              [(url, getHttpOptions registryUrl registryToken url)])
          | none => (.error (.parseError url),
              [(url, getHttpOptions registryUrl registryToken url)])
      | none =>
        if 400 ≤ (net url).status then
          (.error (classifyJsonError (net url)),
            [(url, getHttpOptions registryUrl registryToken url)])
        else
          match (net url).bodyJson with
          | some _ => (.ok (net url).body,
              [(url, getHttpOptions registryUrl registryToken url)])
          | none => (.error (.parseError url),
              [(url, getHttpOptions registryUrl registryToken url)])

/-- Embedding of `fetchStream`. The successful value is the URL whose
response body is returned as the open stream. Any non-redirect status other
than 200 is rejected with the generic stream error — there is no 401/403
distinction here. The `withRetries` wrapper is the identity, as in
`fetchJson`. -/
def fetchStream (net : String → HttpResponse) (allowHttp : Bool)
    (registryUrl : String) (registryToken : Option String) :
    Nat → String → Except FetchErr String × List Request
  | redirectsLeft, url =>
    if strStartsWith url "http:" ∧ ¬allowHttp then (.error .httpNotAllowed, [])
    else
      match (net url).location with
      | some loc =>
        if 300 ≤ (net url).status ∧ (net url).status < 400 then
          match redirectsLeft with
          | 0 => (.error (.tooManyRedirects url),
              [(url, getHttpOptions registryUrl registryToken url)])
          | rem + 1 =>
            match fetchStream net allowHttp registryUrl registryToken rem loc with
            | (res, log) =>
              (res, (url, getHttpOptions registryUrl registryToken url) :: log)
        else if (net url).status = 200 then
          (.ok url, [(url, getHttpOptions registryUrl registryToken url)])
        else (.error (.streamStatusError (net url).status url),
          [(url, getHttpOptions registryUrl registryToken url)])
      | none =>
        if (net url).status = 200 then
          (.ok url, [(url, getHttpOptions registryUrl registryToken url)])
        else (.error (.streamStatusError (net url).status url),
          [(url, getHttpOptions registryUrl registryToken url)])

/-! ### Tarball URL resolution (C3) -/

/-- `versions[v].dist` of the registry metadata. -/
structure DistInfo where
  tarball : Option String
deriving DecidableEq, Repr

/-- One entry of the metadata's `versions` map. -/
structure VersionMeta where
  dist : Option DistInfo
  url : Option String
deriving DecidableEq, Repr

/-- The registry metadata fields `getTarballUrl` consults. -/
structure PackageData where
  versions : Option (List (String × VersionMeta))
  distTagsLatest : Option String
deriving DecidableEq, Repr

def lookupVersion (versions : List (String × VersionMeta)) (v : String) :
    Option VersionMeta :=
  match versions with
  | [] => none
  | (v', m) :: rest => if v' = v then some m else lookupVersion rest v

/-- The package-not-found failures of `getTarballUrl`: metadata fetch
failed, or the requested version is absent from the versions map. -/
inductive RegistryLookupErr where
  | packageNotFound (id : String) (version : Option String)
deriving DecidableEq, Repr

/-- `a ?? b` of JavaScript: only `null`/`undefined` falls through. -/
def nullish {α : Type} : Option α → Option α → Option α
  | some a, _ => some a
  | none, b => b

/-- The hardcoded default public registry. -/
def defaultRegistryUrl : String := "https://packages.fhir.org"

/-- The hardcoded secondary host template base. -/
def fallbackUrlBase : String := "https://packages.simplifier.net"

/-- Embedding of `getTarballUrl`. `fetchMeta` is the (already unwrapped)
outcome of `getPackageDataFromRegistry`: `Except.error` when the metadata
fetch rejected. -/
def getTarballUrl (registryUrl : String)
    (fetchMeta : String → Except FetchErr PackageData)
    (packageObject : PackageIdentifier) : Except RegistryLookupErr String :=
  let isPrivateRegistry := registryUrl ≠ defaultRegistryUrl
  match fetchMeta packageObject.id with
  | .error _ => .error (.packageNotFound packageObject.id none)
  | .ok packageData =>
    match packageData.versions with
    | none => .error (.packageNotFound packageObject.id (some packageObject.version))
    | some versions =>
      match lookupVersion versions packageObject.version with
      | none => .error (.packageNotFound packageObject.id (some packageObject.version))
      | some vmeta =>
        if isPrivateRegistry then
          .ok (registryUrl ++ "/" ++ packageObject.id ++ "/-/" ++ packageObject.id ++
            "-" ++ packageObject.version ++ ".tgz")
        else
          match nullish (vmeta.dist.bind DistInfo.tarball) vmeta.url with
          | some u =>
            if u = "" then
              .ok (fallbackUrlBase ++ "/" ++ packageObject.id ++ "/-/" ++
                packageObject.id ++ "-" ++ packageObject.version ++ ".tgz")
            else .ok u
          | none =>
            .ok (fallbackUrlBase ++ "/" ++ packageObject.id ++ "/-/" ++
              packageObject.id ++ "-" ++ packageObject.version ++ ".tgz")

/-- C3 (counterexample): on the default public registry, when the
metadata's `dist.tarball` is absent but the version entry carries a `url`
field, `getTarballUrl` returns that `url` — not the hardcoded secondary
host template the claim prescribes for every tarball-less case. -/
theorem C3_counterexample :
    getTarballUrl defaultRegistryUrl
      (fun _ => .ok ⟨some [("1.0.0", ⟨some ⟨none⟩, some "https://elsewhere.example/p.tgz"⟩)],
        none⟩)
      ⟨"pkg.a", "1.0.0"⟩ = .ok "https://elsewhere.example/p.tgz" ∧
    "https://elsewhere.example/p.tgz" ≠
      fallbackUrlBase ++ "/pkg.a/-/pkg.a-1.0.0.tgz" := by
  constructor
  · rfl
  · decide

/-- C3 (amended): tarball URL resolution first fetches the metadata and
fails with a package-not-found error when the fetch fails or the requested
version is absent from the versions map; a non-default registry always
gets the URL built by template from the registry base; on the default
public registry the nullish-coalescing chain `dist.tarball ?? url` picks
the `dist.tarball` value whenever that field is present — even when it is
the empty string — and the version-level `url` field only when
`dist.tarball` is null or undefined; the hardcoded secondary host template
is used exactly when the chosen value is missing or empty, so an empty
`dist.tarball` routes to the template even alongside a nonempty `url`. -/
theorem C3_getTarballUrl :
    (∀ (registryUrl : String) (fetchMeta : String → Except FetchErr PackageData)
        (pkg : PackageIdentifier) (e : FetchErr), fetchMeta pkg.id = .error e →
      getTarballUrl registryUrl fetchMeta pkg = .error (.packageNotFound pkg.id none)) ∧
    (∀ (registryUrl : String) (fetchMeta : String → Except FetchErr PackageData)
        (pkg : PackageIdentifier) (pd : PackageData), fetchMeta pkg.id = .ok pd →
      (pd.versions = none ∨
        ∃ vs, pd.versions = some vs ∧ lookupVersion vs pkg.version = none) →
      getTarballUrl registryUrl fetchMeta pkg =
        .error (.packageNotFound pkg.id (some pkg.version))) ∧
    (∀ (registryUrl : String) (fetchMeta : String → Except FetchErr PackageData)
        (pkg : PackageIdentifier) (pd : PackageData) (vs : List (String × VersionMeta))
        (vmeta : VersionMeta), registryUrl ≠ defaultRegistryUrl →
      fetchMeta pkg.id = .ok pd → pd.versions = some vs →
      lookupVersion vs pkg.version = some vmeta →
      getTarballUrl registryUrl fetchMeta pkg =
        .ok (registryUrl ++ "/" ++ pkg.id ++ "/-/" ++ pkg.id ++ "-" ++
          pkg.version ++ ".tgz")) ∧
    (∀ (fetchMeta : String → Except FetchErr PackageData) (pkg : PackageIdentifier)
        (pd : PackageData) (vs : List (String × VersionMeta)) (vmeta : VersionMeta)
        (u : String), fetchMeta pkg.id = .ok pd → pd.versions = some vs →
      lookupVersion vs pkg.version = some vmeta →
      vmeta.dist.bind DistInfo.tarball = some u → u ≠ "" →
      getTarballUrl defaultRegistryUrl fetchMeta pkg = .ok u) ∧
    (∀ (fetchMeta : String → Except FetchErr PackageData) (pkg : PackageIdentifier)
        (pd : PackageData) (vs : List (String × VersionMeta)) (vmeta : VersionMeta)
        (u : String), fetchMeta pkg.id = .ok pd → pd.versions = some vs →
      lookupVersion vs pkg.version = some vmeta →
      vmeta.dist.bind DistInfo.tarball = none → vmeta.url = some u → u ≠ "" →
      getTarballUrl defaultRegistryUrl fetchMeta pkg = .ok u) ∧
    (∀ (fetchMeta : String → Except FetchErr PackageData) (pkg : PackageIdentifier)
        (pd : PackageData) (vs : List (String × VersionMeta)) (vmeta : VersionMeta),
      fetchMeta pkg.id = .ok pd → pd.versions = some vs →
      lookupVersion vs pkg.version = some vmeta →
      (nullish (vmeta.dist.bind DistInfo.tarball) vmeta.url = none ∨
        nullish (vmeta.dist.bind DistInfo.tarball) vmeta.url = some "") →
      getTarballUrl defaultRegistryUrl fetchMeta pkg =
        .ok (fallbackUrlBase ++ "/" ++ pkg.id ++ "/-/" ++ pkg.id ++ "-" ++
          pkg.version ++ ".tgz")) ∧
    (∀ (fetchMeta : String → Except FetchErr PackageData) (pkg : PackageIdentifier)
        (pd : PackageData) (vs : List (String × VersionMeta)) (vmeta : VersionMeta),
      fetchMeta pkg.id = .ok pd → pd.versions = some vs →
      lookupVersion vs pkg.version = some vmeta →
      vmeta.dist.bind DistInfo.tarball = some "" →
      getTarballUrl defaultRegistryUrl fetchMeta pkg =
        .ok (fallbackUrlBase ++ "/" ++ pkg.id ++ "/-/" ++ pkg.id ++ "-" ++
          pkg.version ++ ".tgz")) := by
  refine ⟨?_, ?_, ?_, ?_, ?_, ?_, ?_⟩
  · intro registryUrl fetchMeta pkg e he
    simp [getTarballUrl, he]
  · intro registryUrl fetchMeta pkg pd hok hv
    rcases hv with hv | ⟨vs, hvs, hlk⟩
    · simp [getTarballUrl, hok, hv]
    · simp [getTarballUrl, hok, hvs, hlk]
  · intro registryUrl fetchMeta pkg pd vs vmeta hpriv hok hvs hlk
    simp [getTarballUrl, hok, hvs, hlk, hpriv]
  · intro fetchMeta pkg pd vs vmeta u hok hvs hlk htb hu
    simp [getTarballUrl, hok, hvs, hlk, nullish, htb, hu]
  · intro fetchMeta pkg pd vs vmeta u hok hvs hlk htb hurl hu
    simp [getTarballUrl, hok, hvs, hlk, nullish, htb, hurl, hu]
  · intro fetchMeta pkg pd vs vmeta hok hvs hlk hch
    rcases hch with hch | hch
    · simp [getTarballUrl, hok, hvs, hlk, hch]
    · simp [getTarballUrl, hok, hvs, hlk, hch]
  · intro fetchMeta pkg pd vs vmeta hok hvs hlk htb
    simp [getTarballUrl, hok, hvs, hlk, nullish, htb]

theorem C3_getTarballUrl_witness :
    getTarballUrl "https://npm.example/fhir"
      (fun _ => .ok ⟨some [("2.0.0", ⟨some ⟨some "https://npm.example/other.tgz"⟩, none⟩)],
        none⟩)
      ⟨"pkg.b", "2.0.0"⟩ = .ok "https://npm.example/fhir/pkg.b/-/pkg.b-2.0.0.tgz" ∧
    getTarballUrl defaultRegistryUrl
      (fun _ => .ok ⟨some [("2.0.0", ⟨none, none⟩)], none⟩)
      ⟨"pkg.b", "2.0.0"⟩ =
        .ok (fallbackUrlBase ++ "/pkg.b/-/pkg.b-2.0.0.tgz") ∧
    getTarballUrl defaultRegistryUrl
      (fun _ => .ok ⟨some [("2.0.0", ⟨some ⟨some ""⟩, some "https://elsewhere.example/p.tgz"⟩)],
        none⟩)
      ⟨"pkg.b", "2.0.0"⟩ =
        .ok (fallbackUrlBase ++ "/pkg.b/-/pkg.b-2.0.0.tgz") := by
  refine ⟨?_, ?_, ?_⟩
  · exact C3_getTarballUrl.2.2.1 "https://npm.example/fhir" _ ⟨"pkg.b", "2.0.0"⟩ _ _ _
      (by decide) rfl rfl rfl
  · exact C3_getTarballUrl.2.2.2.2.2.1 _ ⟨"pkg.b", "2.0.0"⟩ _ _ _ rfl rfl rfl (Or.inl rfl)
  · exact C3_getTarballUrl.2.2.2.2.2.2 _ ⟨"pkg.b", "2.0.0"⟩ _ _ _ rfl rfl rfl rfl

/-- C4 (counterexample): a 401 response on a tarball fetch. `fetchStream`
rejects any non-200 final status with the generic stream error carrying the
status — it does not translate 401 to the authentication-failed error (nor
403 to authorization-failed) as the claim says both operations do;
`fetchJson` on the same response does. -/
theorem C4_counterexample :
    (fetchJson (fun _ => ⟨401, none, "denied", none⟩) false defaultRegistryUrl none
      5 "https://packages.fhir.org/p").1 = .error .authenticationFailed ∧
    (fetchStream (fun _ => ⟨401, none, "denied", none⟩) false defaultRegistryUrl none
      5 "https://packages.fhir.org/p").1 =
      .error (.streamStatusError 401 "https://packages.fhir.org/p") ∧
    FetchErr.streamStatusError 401 "https://packages.fhir.org/p" ≠
      FetchErr.authenticationFailed := by
  refine ⟨rfl, rfl, by decide⟩

/-- C4 (amended): for the metadata fetch, every final (non-redirect)
response with status ≥ 400 is rejected with a typed failure — 401 as
authentication-failed, 403 as authorization-failed, any other status as a
generic error carrying the status and the response body or message. For
the tarball stream fetch, every such response is rejected with the generic
stream error carrying the status. Neither operation ever returns such a
response as success. -/
theorem C4_http_errors (net : String → HttpResponse) (allowHttp : Bool)
    (registryUrl : String) (registryToken : Option String)
    (redirectsLeft : Nat) (url : String)
    (hhttp : strStartsWith url "http:" = false ∨ allowHttp = true)
    (h400 : 400 ≤ (net url).status) :
    ((net url).status = 401 →
      (fetchJson net allowHttp registryUrl registryToken redirectsLeft url).1 =
        .error .authenticationFailed) ∧
    ((net url).status = 403 →
      (fetchJson net allowHttp registryUrl registryToken redirectsLeft url).1 =
        .error .authorizationFailed) ∧
    ((net url).status ≠ 401 → (net url).status ≠ 403 →
      (fetchJson net allowHttp registryUrl registryToken redirectsLeft url).1 =
        .error (.httpError (net url).status (errBodyMsg (net url)))) ∧
    (fetchStream net allowHttp registryUrl registryToken redirectsLeft url).1 =
      .error (.streamStatusError (net url).status url) := by
  have hcond : ¬(strStartsWith url "http:" = true ∧ ¬allowHttp = true) := by
    rcases hhttp with h | h <;> simp [h]
  have hnr : ¬(300 ≤ (net url).status ∧ (net url).status < 400) := by omega
  have h200 : ¬(net url).status = 200 := by omega
  refine ⟨?_, ?_, ?_, ?_⟩
  · intro h401
    rw [fetchJson, if_neg hcond]
    cases hloc : (net url).location <;>
      simp [hloc, hnr, h400, classifyJsonError, h401]
  · intro h403
    rw [fetchJson, if_neg hcond]
    cases hloc : (net url).location <;>
      simp [hloc, hnr, h400, classifyJsonError, h403]
  · intro h401 h403
    rw [fetchJson, if_neg hcond]
    cases hloc : (net url).location <;>
      simp [hloc, hnr, h400, classifyJsonError, h401, h403]
  · rw [fetchStream, if_neg hcond]
    cases hloc : (net url).location <;> simp [hloc, hnr, h200]

theorem C4_http_errors_witness :
    (fetchJson (fun _ => ⟨500, none, "boom", none⟩) false defaultRegistryUrl none
      5 "https://packages.fhir.org/q").1 = .error (.httpError 500 "boom") ∧
    (fetchStream (fun _ => ⟨500, none, "boom", none⟩) false defaultRegistryUrl none
      5 "https://packages.fhir.org/q").1 =
      .error (.streamStatusError 500 "https://packages.fhir.org/q") := by
  have h := C4_http_errors (fun _ => ⟨500, none, "boom", none⟩) false
    defaultRegistryUrl none 5 "https://packages.fhir.org/q" (Or.inl (by decide))
    (by decide)
  exact ⟨h.2.2.1 (by decide) (by decide), h.2.2.2⟩

/-- Every request issued by `fetchStream` — the initial one and every
redirect hop — carries exactly the header `getHttpOptions` computes for
its URL. -/
theorem fetchStream_log_auth (net : String → HttpResponse) (allowHttp : Bool)
    (registryUrl : String) (registryToken : Option String) :
    ∀ (redirectsLeft : Nat) (url : String) (req : String × Option String),
      req ∈ (fetchStream net allowHttp registryUrl registryToken redirectsLeft url).2 →
      req.2 = getHttpOptions registryUrl registryToken req.1 := by
  intro redirectsLeft
  induction redirectsLeft with
  | zero =>
    intro url req hreq
    rw [fetchStream] at hreq
    split at hreq
    · simp at hreq
    · split at hreq
      · split at hreq
        · simp at hreq
          simp [hreq]
        · split at hreq <;> (simp at hreq; simp [hreq])
      · split at hreq <;> (simp at hreq; simp [hreq])
  | succ rem ih =>
    intro url req hreq
    rw [fetchStream] at hreq
    split at hreq
    · simp at hreq
    · split at hreq
      · split at hreq
        · rename_i loc hloc hred
          simp at hreq
          rcases hreq with hreq | hreq
          · simp [hreq]
          · exact ih loc req hreq
        · split at hreq <;> (simp at hreq; simp [hreq])
      · split at hreq <;> (simp at hreq; simp [hreq])

/-- The same for `fetchJson`. -/
theorem fetchJson_log_auth (net : String → HttpResponse) (allowHttp : Bool)
    (registryUrl : String) (registryToken : Option String) :
    ∀ (redirectsLeft : Nat) (url : String) (req : String × Option String),
      req ∈ (fetchJson net allowHttp registryUrl registryToken redirectsLeft url).2 →
      req.2 = getHttpOptions registryUrl registryToken req.1 := by
  intro redirectsLeft
  induction redirectsLeft with
  | zero =>
    intro url req hreq
    rw [fetchJson] at hreq
    split at hreq
    · simp at hreq
    · split at hreq
      · split at hreq
        · simp at hreq
          simp [hreq]
        · split at hreq
          · simp at hreq
            simp [hreq]
          · split at hreq <;> (simp at hreq; simp [hreq])
      · split at hreq
        · simp at hreq
          simp [hreq]
        · split at hreq <;> (simp at hreq; simp [hreq])
  | succ rem ih =>
    intro url req hreq
    rw [fetchJson] at hreq
    split at hreq
    · simp at hreq
    · split at hreq
      · split at hreq
        · rename_i loc hloc hred
          simp at hreq
          rcases hreq with hreq | hreq
          · simp [hreq]
          · exact ih loc req hreq
        · split at hreq
          · simp at hreq
            simp [hreq]
          · split at hreq <;> (simp at hreq; simp [hreq])
      · split at hreq
        · simp at hreq
          simp [hreq]
        · split at hreq <;> (simp at hreq; simp [hreq])

/-- C5 (counterexample): with a token configured for
`https://registry.example`, a redirect to
`https://registry.example.evil.com/t` — a different host whose URL string
happens to extend the configured registry URL — receives the bearer
header on the redirect hop, contradicting the claim that the header is
never sent to a redirect target on a different host. -/
theorem C5_counterexample :
    (fetchStream
      (fun u => if u = "https://registry.example/pkg"
        then ⟨302, some "https://registry.example.evil.com/t", "", none⟩
        else ⟨200, none, "data", none⟩)
      false "https://registry.example" (some "tok")
      5 "https://registry.example/pkg").2 =
      [("https://registry.example/pkg", some "Bearer tok"),
       ("https://registry.example.evil.com/t", some "Bearer tok")] ∧
    hostname "https://registry.example.evil.com/t" ≠ hostname "https://registry.example" := by
  constructor
  · rfl
  · decide

/-- C5 (amended): when a token is configured, a request carries the bearer
header exactly when its URL string extends the configured registry URL or
its host equals the registry's host; every request issued by the two fetch
operations — the initial one and every redirect hop — follows this rule,
so the header is attached across same-host redirects, and a different-host
redirect target receives it only in the degenerate case where its URL
string extends the configured registry URL. -/
theorem C5_auth_header_policy :
    (∀ (registryUrl tok url : String),
      getHttpOptions registryUrl (some tok) url = some ("Bearer " ++ tok) ↔
        (strStartsWith url registryUrl = true ∨ hostname url = hostname registryUrl)) ∧
    (∀ (registryUrl tok url : String),
      getHttpOptions registryUrl (some tok) url = none ↔
        ¬(strStartsWith url registryUrl = true ∨ hostname url = hostname registryUrl)) ∧
    (∀ registryUrl url : String, getHttpOptions registryUrl none url = none) ∧
    (∀ (net : String → HttpResponse) (allowHttp : Bool) (registryUrl : String)
        (registryToken : Option String) (redirectsLeft : Nat) (url : String)
        (req : String × Option String),
      req ∈ (fetchStream net allowHttp registryUrl registryToken redirectsLeft url).2 ∨
      req ∈ (fetchJson net allowHttp registryUrl registryToken redirectsLeft url).2 →
      req.2 = getHttpOptions registryUrl registryToken req.1) := by
  refine ⟨?_, ?_, ?_, ?_⟩
  · intro registryUrl tok url
    rw [getHttpOptions]
    split <;> rename_i hcond
    · simp [hcond]
    · simp [hcond]
  · intro registryUrl tok url
    rw [getHttpOptions]
    split <;> rename_i hcond
    · simp [hcond]
    · simp [hcond]
  · intro registryUrl url
    rfl
  · intro net allowHttp registryUrl registryToken redirectsLeft url req hreq
    rcases hreq with hreq | hreq
    · exact fetchStream_log_auth net allowHttp registryUrl registryToken
        redirectsLeft url req hreq
    · exact fetchJson_log_auth net allowHttp registryUrl registryToken
        redirectsLeft url req hreq

theorem C5_auth_header_policy_witness :
    getHttpOptions "https://r.example" (some "t") "https://r.example/sub/pkg" =
      some ("Bearer " ++ "t") ∧
    getHttpOptions "https://r.example" (some "t") "https://unrelated.example/x" = none ∧
    (("https://r.example/a", some "Bearer t") : String × Option String).2 =
      getHttpOptions "https://r.example" (some "t") "https://r.example/a" := by
  refine ⟨?_, ?_, ?_⟩
  · exact (C5_auth_header_policy.1 "https://r.example" "t" "https://r.example/sub/pkg").mpr
      (Or.inl (by decide))
  · exact (C5_auth_header_policy.2.1 "https://r.example" "t"
      "https://unrelated.example/x").mpr (by decide)
  · exact C5_auth_header_policy.2.2.2 (fun _ => ⟨200, none, "", none⟩) false
      "https://r.example" (some "t") 5 "https://r.example/a"
      ("https://r.example/a", some "Bearer t") (Or.inl (by decide))

/-! ## Install orchestrator (C1, C2, C8, C9, C10)

The file system is an association list mapping cache directory names
(`name#version`) to the content the orchestrator reads from an entry: the
manifest's dependencies, whether `.fpi.index.json` exists, and an opaque
payload standing for the remaining files. The registry is an oracle
providing the `dist-tags.latest` lookup and the extracted content of a
version's tarball; network I/O is logged as events. -/

/-- A cache entry (the `package/` content of one `name#version`
directory). -/
structure CacheEntry where
  deps : List (String × String)
  hasIndex : Bool
  payload : List (String × String)
deriving DecidableEq, Repr

abbrev CacheState := List (String × CacheEntry)

def lookupEntry (st : CacheState) (dirName : String) : Option CacheEntry :=
  match st with
  | [] => none
  | (k, e) :: rest => if k = dirName then some e else lookupEntry rest dirName

/-- `fs.move(src, dest)` creating a fresh directory. -/
def insertEntry (st : CacheState) (dirName : String) (e : CacheEntry) : CacheState :=
  st ++ [(dirName, e)]

/-- Writing `.fpi.index.json` into an existing entry
(`generatePackageIndex`). -/
def setIndexTrue (st : CacheState) (dirName : String) : CacheState :=
  match st with
  | [] => []
  | (k, e) :: rest =>
    if k = dirName then (k, { e with hasIndex := true }) :: rest
    else (k, e) :: setIndexTrue rest dirName

/-- `fs.remove` of a cache directory. -/
def removeEntry (st : CacheState) (dirName : String) : CacheState :=
  match st with
  | [] => []
  | (k, e) :: rest =>
    if k = dirName then removeEntry rest dirName else (k, e) :: removeEntry rest dirName

/-- What a tarball extracts to (before the extraction engine writes the
index file into the staged tree). -/
structure TarballContent where
  deps : List (String × String)
  payload : List (String × String)
deriving DecidableEq, Repr

/-- The registry oracle: `latest` is the metadata's `dist-tags.latest`
(`none` when the fetch fails or the tag is missing); `tarball` is the
extracted content of the version's tarball (`none` when resolution or
download fails). -/
structure Registry where
  latest : String → Option String
  tarball : String → String → Option TarballContent

/-- Network events: a metadata fetch for a package id, and a tarball
download. -/
inductive NetEvent where
  | metadata (id : String)
  | download (id version : String)
deriving DecidableEq, Repr

inductive InstallErr where
  /-- `Invalid package identifier: empty string` -/
  | emptyPackageId
  /-- `checkLatestPackageDist` threw (fetch failed or no latest tag). -/
  | latestNotFound (id : String)
  /-- tarball URL resolution or download failed. -/
  | packageNotFound (id version : String)
  /-- reading the entry (manifest / folder scan) failed: entry absent. -/
  | missingEntry (dirName : String)
  /-- `Invalid path` in `installLocalPackage`. -/
  | invalidPath
  /-- model artifact: recursion fuel exhausted. -/
  | outOfFuel
deriving DecidableEq, Repr

/-- JavaScript `split` on a one-character separator. -/
def splitOnChar (sep : Char) : List Char → List (List Char)
  | [] => [[]]
  | c :: rest =>
    if c = sep then [] :: splitOnChar sep rest
    else
      match splitOnChar sep rest with
      | h :: t => (c :: h) :: t
      | [] => [[c]]

/-- `packageId.split(sep)[0]`. -/
def headSplit (sep : Char) (l : List Char) : List Char :=
  l.takeWhile (fun c => c ≠ sep)

/-- Embedding of `getVersionFromPackageString`: the version part of a raw
identifier string, `latest` when none is supplied. -/
def getVersionFromPackageString (packageId : String) : String :=
  match splitOnChar '#' packageId.toList with
  | [_, v] => String.mk v
  | _ =>
    match splitOnChar '@' packageId.toList with
    | [_, v] => String.mk v
    | _ => "latest"

/-- `packageId.split('#')[0].split('@')[0]`. -/
def packageNameOf (packageId : String) : String :=
  String.mk (headSplit '@' (headSplit '#' packageId.toList))

/-- Embedding of `toPackageObject` on a string identifier: trim, reject
the empty string, split name and version, and resolve `latest` through
the registry's `dist-tags` lookup (a metadata fetch, logged). -/
def toPackageObject (reg : Registry) (packageId : String) :
    Except InstallErr (PackageIdentifier × List NetEvent) :=
  match trimWs packageId.toList with
  | [] => .error .emptyPackageId
  | trimmed =>
    let packageName := packageNameOf (String.mk trimmed)
    let packageVersion := getVersionFromPackageString (String.mk trimmed)
    if packageVersion = "latest" then
      match reg.latest packageName with
      | some v => .ok (⟨packageName, v⟩, [.metadata packageName])
      | none => .error (.latestNotFound packageName)
    else .ok (⟨packageName, packageVersion⟩, [])

/-- `toDirName`: the cache directory name `name#version`. -/
def toDirName (pkg : PackageIdentifier) : String :=
  pkg.id ++ "#" ++ pkg.version

def lookupStr (l : List (String × String)) (k : String) : Option String :=
  match l with
  | [] => none
  | (k', v) :: rest => if k' = k then some v else lookupStr rest k

/-- JavaScript object assignment `deps[k] = v`. -/
def setStr (l : List (String × String)) (k v : String) : List (String × String) :=
  match l with
  | [] => [(k, v)]
  | (k', v') :: rest => if k' = k then (k, v) :: rest else (k', v') :: setStr rest k v

/-- The special-case remap of `getDependencies`: a manifest declaring
`hl7.fhir.r4.core` at `4.0.0` is rewritten to `4.0.1`. -/
def remapCoreDeps (deps : List (String × String)) : List (String × String) :=
  if lookupStr deps "hl7.fhir.r4.core" = some "4.0.0" then
    setStr deps "hl7.fhir.r4.core" "4.0.1"
  else deps

def containsSub (sub : List Char) : List Char → Bool
  | [] => sub.isPrefixOf []
  | c :: rest => sub.isPrefixOf (c :: rest) || containsSub sub rest

/-- `dep.includes('examples')` (JavaScript substring containment). -/
def strContains (s sub : String) : Bool :=
  containsSub sub.toList s.toList

/-- Embedding of `cachePackage`. `stCheck` is the cache state at the
`isInstalled` check, `stMove` the state at the move (the two differ only
when a concurrent installer slipped in between the two awaits). The
returned flag records whether the benign-race warning was logged. The
`move`-vs-`copy` flag of the source only affects the staging directory and
has no cache-state effect. -/
def cachePackage (cachePath : String) (packageObject : PackageIdentifier)
    (srcHasPackageSubdir : Bool) (src : CacheEntry)
    (stCheck stMove : CacheState) : CacheState × String × Bool :=
  let dirName := toDirName packageObject
  let finalPath :=
    if srcHasPackageSubdir then cachePath ++ "/" ++ dirName
    else cachePath ++ "/" ++ dirName ++ "/package"
  match lookupEntry stCheck dirName with
  | some _ => (stMove, finalPath, false)
  | none =>
    match lookupEntry stMove dirName with
    | some _ => (stMove, finalPath, true)
    | none => (insertEntry stMove dirName src, finalPath, false)

/-- The three mutually recursive phases of `install`, merged into one
fuel-indexed recursion: installing a raw identifier string, installing an
installed entry's dependencies, and the `for (const dep in deps)` loop
over a dependency list. -/
inductive InstallJob where
  | pkgStr (packageId : String)
  | deps (pkg : PackageIdentifier)
  | list (deps : List (String × String))

/-- Embedding of `install` (for a raw identifier string — dependency
recursion always goes through strings `dep@version`), of
`installPackageDependencies` (ensure the index file exists
(`getPackageIndexFile` regenerates it when missing — a state write, no
network), read the manifest's dependencies with the version remap), and
of its dependency loop. `install`: resolve the identifier,
download/extract/cache when not yet installed, then install the
dependencies. Fuel bounds the recursion depth (the JS recursion is
unbounded; every claim is stated for sufficient fuel). -/
def installRun (reg : Registry) (skipExamples : Bool) (cachePath : String) :
    Nat → InstallJob → CacheState → Except InstallErr (CacheState × List NetEvent)
  | 0, _, _ => .error .outOfFuel
  | fuel + 1, .pkgStr packageId, st =>
    match toPackageObject reg packageId with
    | .error e => .error e
    | .ok (pkg, log0) =>
      match lookupEntry st (toDirName pkg) with
      | some _ =>
        match installRun reg skipExamples cachePath fuel (.deps pkg) st with
        | .error e => .error e
        | .ok (st', log1) => .ok (st', log0 ++ log1)
      | none =>
        match reg.tarball pkg.id pkg.version with
        | none => .error (.packageNotFound pkg.id pkg.version)
        | some tb =>
          match cachePackage cachePath pkg true ⟨tb.deps, true, tb.payload⟩ st st with
          | (st1, _, _) =>
            match installRun reg skipExamples cachePath fuel (.deps pkg) st1 with
            | .error e => .error e
            | .ok (st', log1) =>
              .ok (st', log0 ++ [.metadata pkg.id, .download pkg.id pkg.version] ++ log1)
  | fuel + 1, .deps pkg, st =>
    match lookupEntry st (toDirName pkg) with
    | none => .error (.missingEntry (toDirName pkg))
    | some e =>
      installRun reg skipExamples cachePath fuel (.list (remapCoreDeps e.deps))
        (if e.hasIndex then st else setIndexTrue st (toDirName pkg))
  | _ + 1, .list [], st => .ok (st, [])
  | fuel + 1, .list ((d, v) :: rest), st =>
    if skipExamples ∧ strContains d "examples" then
      installRun reg skipExamples cachePath fuel (.list rest) st
    else
      match installRun reg skipExamples cachePath fuel (.pkgStr (d ++ "@" ++ v)) st with
      | .error e => .error e
      | .ok (st1, l1) =>
        match installRun reg skipExamples cachePath fuel (.list rest) st1 with
        | .error e => .error e
        | .ok (st2, l2) => .ok (st2, l1 ++ l2)

/-- `install` on a raw identifier string. -/
def installGo (reg : Registry) (skipExamples : Bool) (cachePath : String)
    (fuel : Nat) (packageId : String) (st : CacheState) :
    Except InstallErr (CacheState × List NetEvent) :=
  installRun reg skipExamples cachePath fuel (.pkgStr packageId) st

/-- `installPackageDependencies` on an installed package. -/
def installPackageDependencies (reg : Registry) (skipExamples : Bool)
    (cachePath : String) (fuel : Nat) (pkg : PackageIdentifier) (st : CacheState) :
    Except InstallErr (CacheState × List NetEvent) :=
  installRun reg skipExamples cachePath fuel (.deps pkg) st

/-- The `for (const dep in deps)` loop. -/
def installList (reg : Registry) (skipExamples : Bool) (cachePath : String)
    (fuel : Nat) (deps : List (String × String)) (st : CacheState) :
    Except InstallErr (CacheState × List NetEvent) :=
  installRun reg skipExamples cachePath fuel (.list deps) st

/-- Options of `installLocalPackage`. -/
structure InstallPackageOptions where
  packageId : Option String
  override : Bool
  installDependencies : Bool
deriving Repr

/-- A local installation source (tarball file or directory), as far as the
orchestrator reads it. -/
structure LocalSource where
  isDirectory : Bool
  hasPackageSubdir : Bool
  manifestName : String
  manifestVersion : String
  deps : List (String × String)
  hasIndex : Bool
  payload : List (String × String)
deriving Repr

/-- The content staged from a local source: extracting a tarball file
writes a fresh index into the staged tree (`extractTarball`); a directory
source is used as-is. -/
def LocalSource.staged (src : LocalSource) : CacheEntry :=
  if src.isDirectory then ⟨src.deps, src.hasIndex, src.payload⟩
  else ⟨src.deps, true, src.payload⟩

/-- Identifier resolution of `installLocalPackage`: an explicit
`options.packageId` goes through `toPackageObject`, otherwise the staged
manifest's name and version are used. -/
def resolveLocalPkg (reg : Registry) (src : LocalSource)
    (options : InstallPackageOptions) :
    Except InstallErr (PackageIdentifier × List NetEvent) :=
  match options.packageId with
  | some pid => toPackageObject reg pid
  | none => .ok (⟨src.manifestName, src.manifestVersion⟩, [])

/-- Embedding of `installLocalPackage`: validate the path, stage the
source, resolve the identifier, short-circuit with `false` when already
installed and not overriding; otherwise remove any existing entry, cache
the staged content, regenerate the index, optionally install dependencies,
and return `true`. -/
def installLocalPackage (reg : Registry) (skipExamples : Bool) (cachePath : String)
    (fuel : Nat) (srcPathEmpty srcExists : Bool) (src : LocalSource)
    (options : InstallPackageOptions) (st : CacheState) :
    Except InstallErr (Bool × CacheState × List NetEvent) :=
  if srcPathEmpty then .error .invalidPath
  else if ¬srcExists then .error .invalidPath
  else
    match resolveLocalPkg reg src options with
    | .error e => .error e
    | .ok (pkg, log0) =>
      if (lookupEntry st (toDirName pkg)).isSome ∧ ¬options.override then
        .ok (false, st, log0)
      else
        match cachePackage cachePath pkg src.hasPackageSubdir src.staged
          (removeEntry st (toDirName pkg)) (removeEntry st (toDirName pkg)) with
        | (st2, _, _) =>
          if options.installDependencies then
            match installPackageDependencies reg skipExamples cachePath fuel pkg
              (setIndexTrue st2 (toDirName pkg)) with
            | .error e => .error e
            | .ok (st4, log1) => .ok (true, st4, log0 ++ log1)
          else .ok (true, setIndexTrue st2 (toDirName pkg), log0)

/-- C2: when the destination directory appears between the `isInstalled`
check and the atomic move (a concurrent installer won the race), the
caching operation does not propagate an error: the move's failure is
caught, the benign-race warning is logged, the existing cache path is
returned, and the cache state is left as the winner made it. Moreover the
orchestrator treats any `cachePackage` outcome as success: in the
download branch of `install`, the result is exactly the dependency
phase's result on the cached state — caching contributes no failure
path. -/
theorem C2_cachePackage_race :
    (∀ (cachePath : String) (pkg : PackageIdentifier) (srcHasPackageSubdir : Bool)
       (src : CacheEntry) (stCheck stMove : CacheState) (e : CacheEntry),
      lookupEntry stCheck (toDirName pkg) = none →
      lookupEntry stMove (toDirName pkg) = some e →
      cachePackage cachePath pkg srcHasPackageSubdir src stCheck stMove =
        (stMove,
         (if srcHasPackageSubdir then cachePath ++ "/" ++ toDirName pkg
          else cachePath ++ "/" ++ toDirName pkg ++ "/package"),
         true)) ∧
    (∀ (reg : Registry) (skipExamples : Bool) (cachePath : String) (fuel : Nat)
       (packageId : String) (st : CacheState) (pkg : PackageIdentifier)
       (log0 : List NetEvent) (tb : TarballContent),
      toPackageObject reg packageId = .ok (pkg, log0) →
      lookupEntry st (toDirName pkg) = none →
      reg.tarball pkg.id pkg.version = some tb →
      installGo reg skipExamples cachePath (fuel + 1) packageId st =
        match installPackageDependencies reg skipExamples cachePath fuel pkg
          (cachePackage cachePath pkg true ⟨tb.deps, true, tb.payload⟩ st st).1 with
        | .error e => .error e
        | .ok (st', log1) =>
          .ok (st', log0 ++ [.metadata pkg.id, .download pkg.id pkg.version] ++ log1)) := by
  constructor
  · intro cachePath pkg srcHasPackageSubdir src stCheck stMove e hchk hmv
    rw [cachePackage, hchk, hmv]
  · intro reg skipExamples cachePath fuel packageId st pkg log0 tb hres hni htb
    rw [installGo, installPackageDependencies, installRun, hres]
    dsimp only
    rw [hni, htb]

theorem C2_cachePackage_race_witness :
    cachePackage "/cache" ⟨"pkg.a", "1.0.0"⟩ true ⟨[], true, []⟩ []
      [("pkg.a#1.0.0", ⟨[], true, [("f.json", "x")]⟩)] =
      ([("pkg.a#1.0.0", ⟨[], true, [("f.json", "x")]⟩)], "/cache/pkg.a#1.0.0", true) := by
  exact C2_cachePackage_race.1 "/cache" ⟨"pkg.a", "1.0.0"⟩ true ⟨[], true, []⟩ []
    [("pkg.a#1.0.0", ⟨[], true, [("f.json", "x")]⟩)] ⟨[], true, [("f.json", "x")]⟩
    rfl rfl

/-- C8: identifier resolution maps `pkg.name@1.0.0` and `pkg.name#1.0.0`
to `{id: pkg.name, version: 1.0.0}` without touching the network, and a
bare `pkg.name` resolves the version to the registry's reported latest
via the dist-tags lookup. -/
theorem C8_identifier_resolution (reg : Registry) :
    toPackageObject reg "pkg.name@1.0.0" =
      .ok (⟨"pkg.name", "1.0.0"⟩, []) ∧
    toPackageObject reg "pkg.name#1.0.0" =
      .ok (⟨"pkg.name", "1.0.0"⟩, []) ∧
    (∀ v, reg.latest "pkg.name" = some v →
      toPackageObject reg "pkg.name" =
        .ok (⟨"pkg.name", v⟩, [.metadata "pkg.name"])) := by
  refine ⟨rfl, rfl, ?_⟩
  intro v hv
  have hstep : toPackageObject reg "pkg.name" =
      match reg.latest "pkg.name" with
      | some v => .ok (⟨"pkg.name", v⟩, [.metadata "pkg.name"])
      | none => .error (.latestNotFound "pkg.name") := rfl
  rw [hstep, hv]

theorem C8_identifier_resolution_witness :
    toPackageObject ⟨fun _ => some "9.9.9", fun _ _ => none⟩ "pkg.name" =
      .ok (⟨"pkg.name", "9.9.9"⟩, [.metadata "pkg.name"]) :=
  (C8_identifier_resolution ⟨fun _ => some "9.9.9", fun _ _ => none⟩).2.2 "9.9.9" rfl

theorem lookupStr_setStr_self (l : List (String × String)) (k v : String) :
    lookupStr (setStr l k v) k = some v := by
  induction l with
  | nil => simp [setStr, lookupStr]
  | cons kv rest ih =>
    rw [setStr]
    split
    · simp [lookupStr]
    · rename_i h
      rw [lookupStr, if_neg h]
      exact ih

theorem lookupStr_setStr_other (l : List (String × String)) (k v d : String)
    (h : d ≠ k) :
    lookupStr (setStr l k v) d = lookupStr l d := by
  induction l with
  | nil =>
    simp only [setStr, lookupStr]
    rw [if_neg (show ¬k = d from fun hh => h hh.symm)]
  | cons kv rest ih =>
    rw [setStr]
    split
    · rename_i hk
      have hnd : ¬kv.1 = d := by rw [hk]; exact fun hh => h hh.symm
      rw [lookupStr, if_neg (fun hh => h hh.symm), lookupStr, if_neg hnd]
    · rw [lookupStr, lookupStr]
      split
      · rfl
      · exact ih

/-- C9: a manifest declaring `hl7.fhir.r4.core` at `4.0.0` has the
dependency set used for recursion carry `4.0.1` instead, so
`hl7.fhir.r4.core@4.0.1` is the string handed to the dependency installs
for that package; every other declared dependency keeps its exact
declared version, and the remap does not fire on other versions of
`hl7.fhir.r4.core`. -/
theorem C9_version_remap (deps : List (String × String)) :
    (lookupStr deps "hl7.fhir.r4.core" = some "4.0.0" →
      lookupStr (remapCoreDeps deps) "hl7.fhir.r4.core" = some "4.0.1") ∧
    (∀ d, d ≠ "hl7.fhir.r4.core" →
      lookupStr (remapCoreDeps deps) d = lookupStr deps d) ∧
    (∀ v, lookupStr deps "hl7.fhir.r4.core" = some v → v ≠ "4.0.0" →
      lookupStr (remapCoreDeps deps) "hl7.fhir.r4.core" = some v) ∧
    (∀ (reg : Registry) (skipExamples : Bool) (cachePath : String) (fuel : Nat)
       (pkg : PackageIdentifier) (st : CacheState) (e : CacheEntry),
      lookupEntry st (toDirName pkg) = some e → e.deps = deps → e.hasIndex = true →
      installPackageDependencies reg skipExamples cachePath (fuel + 1) pkg st =
        installList reg skipExamples cachePath fuel (remapCoreDeps deps) st) := by
  refine ⟨?_, ?_, ?_, ?_⟩
  · intro h
    rw [remapCoreDeps, if_pos h]
    exact lookupStr_setStr_self deps _ _
  · intro d hd
    rw [remapCoreDeps]
    split
    · exact lookupStr_setStr_other deps _ _ d hd
    · rfl
  · intro v hv hne
    rw [remapCoreDeps, if_neg (by rw [hv]; simp [hne])]
    exact hv
  · intro reg skipExamples cachePath fuel pkg st e he hdeps hidx
    rw [installPackageDependencies, installList, installRun, he]
    dsimp only
    rw [hdeps, hidx]
    simp

theorem C9_version_remap_witness :
    lookupStr (remapCoreDeps [("hl7.fhir.r4.core", "4.0.0"), ("pkg.b", "2.0.0")])
      "hl7.fhir.r4.core" = some "4.0.1" ∧
    lookupStr (remapCoreDeps [("hl7.fhir.r4.core", "4.0.0"), ("pkg.b", "2.0.0")])
      "pkg.b" = some "2.0.0" := by
  exact ⟨(C9_version_remap [("hl7.fhir.r4.core", "4.0.0"), ("pkg.b", "2.0.0")]).1 rfl,
    (C9_version_remap [("hl7.fhir.r4.core", "4.0.0"), ("pkg.b", "2.0.0")]).2.1
      "pkg.b" (by decide)⟩

/-- C10: for a valid local source whose resolved identifier is already
installed, `installLocalPackage` returns `false` and leaves the cache
unchanged when `override` is not set; with `override` set (and dependency
installation not requested) it removes the existing entry, reinstalls the
staged source content, regenerates the index, and returns `true`. -/
theorem C10_installLocalPackage (reg : Registry) (skipExamples : Bool)
    (cachePath : String) (fuel : Nat) (src : LocalSource)
    (options : InstallPackageOptions) (st : CacheState) (pkg : PackageIdentifier)
    (log0 : List NetEvent) (e : CacheEntry)
    (hres : resolveLocalPkg reg src options = .ok (pkg, log0))
    (hinst : lookupEntry st (toDirName pkg) = some e) :
    (options.override = false →
      installLocalPackage reg skipExamples cachePath fuel false true src options st =
        .ok (false, st, log0)) ∧
    (options.override = true → options.installDependencies = false →
      installLocalPackage reg skipExamples cachePath fuel false true src options st =
        .ok (true,
          setIndexTrue
            (insertEntry (removeEntry st (toDirName pkg)) (toDirName pkg) src.staged)
            (toDirName pkg),
          log0)) := by
  constructor
  · intro hov
    rw [installLocalPackage, if_neg (by simp), if_neg (by simp), hres]
    dsimp only
    rw [hinst, hov]
    simp
  · intro hov hdep
    rw [installLocalPackage, if_neg (by simp), if_neg (by simp), hres]
    dsimp only
    rw [hov, if_neg (by simp)]
    have hrm : lookupEntry (removeEntry st (toDirName pkg)) (toDirName pkg) = none := by
      clear hinst
      induction st with
      | nil => simp [removeEntry, lookupEntry]
      | cons kv rest ih =>
        rw [removeEntry]
        split
        · exact ih
        · rename_i h
          rw [lookupEntry, if_neg h]
          exact ih
    rw [cachePackage, hrm]
    simp [hdep]

theorem C10_installLocalPackage_witness :
    installLocalPackage ⟨fun _ => none, fun _ _ => none⟩ false "/cache" 3 false true
      ⟨true, true, "pkg.a", "1.0.0", [], false, [("a.json", "x")]⟩
      ⟨none, false, false⟩
      [("pkg.a#1.0.0", ⟨[], true, []⟩)] =
      .ok (false, [("pkg.a#1.0.0", ⟨[], true, []⟩)], []) ∧
    installLocalPackage ⟨fun _ => none, fun _ _ => none⟩ false "/cache" 3 false true
      ⟨true, true, "pkg.a", "1.0.0", [], false, [("a.json", "x")]⟩
      ⟨none, true, false⟩
      [("pkg.a#1.0.0", ⟨[], true, []⟩)] =
      .ok (true, [("pkg.a#1.0.0", ⟨[], true, [("a.json", "x")]⟩)], []) := by
  constructor
  · exact (C10_installLocalPackage ⟨fun _ => none, fun _ _ => none⟩ false "/cache" 3
      ⟨true, true, "pkg.a", "1.0.0", [], false, [("a.json", "x")]⟩ ⟨none, false, false⟩
      [("pkg.a#1.0.0", ⟨[], true, []⟩)] ⟨"pkg.a", "1.0.0"⟩ [] ⟨[], true, []⟩
      rfl rfl).1 rfl
  · exact (C10_installLocalPackage ⟨fun _ => none, fun _ _ => none⟩ false "/cache" 3
      ⟨true, true, "pkg.a", "1.0.0", [], false, [("a.json", "x")]⟩ ⟨none, true, false⟩
      [("pkg.a#1.0.0", ⟨[], true, []⟩)] ⟨"pkg.a", "1.0.0"⟩ [] ⟨[], true, []⟩
      rfl rfl).2 rfl rfl

/-- A character allowed in a well-formed package name or version: not
whitespace (so trimming is the identity) and not one of the separators
the identifier parser splits on. -/
def cleanChar (c : Char) : Bool :=
  !(isWs c) && c != '@' && c != '#'

/-- A well-formed name/version component: nonempty and made of clean
characters. -/
def cleanStr (s : String) : Bool :=
  !s.toList.isEmpty && s.toList.all cleanChar

/-- A well-formed manifest dependency: clean name, clean concrete version
(not the `latest` dist-tag, whose resolution performs a metadata fetch on
every install). -/
def depOk (dv : String × String) : Bool :=
  cleanStr dv.1 && cleanStr dv.2 && dv.2 != "latest"

def depsOk (deps : List (String × String)) : Bool :=
  deps.all depOk

/-- Every cached manifest declares only well-formed concrete
dependencies. -/
def StateOk (st : CacheState) : Bool :=
  st.all fun kv => depsOk kv.2.deps

/-- Every manifest the registry can serve declares only well-formed
concrete dependencies. -/
def RegOk (reg : Registry) : Prop :=
  ∀ id ver tb, reg.tarball id ver = some tb → depsOk tb.deps = true

/-- Entry evolution during an install: the manifest is never rewritten,
and the index file is only ever created, never deleted. -/
def entryLe (e e' : CacheEntry) : Prop :=
  e'.deps = e.deps ∧ (e.hasIndex = true → e'.hasIndex = true)

/-- Cache-state evolution during an install: entries are only added,
and existing entries only gain their index file. -/
def stateLe (st st' : CacheState) : Prop :=
  ∀ dn e, lookupEntry st dn = some e →
    ∃ e', lookupEntry st' dn = some e' ∧ entryLe e e'

/-- The cache already contains everything the job would install, with
index files present, and the job's identifier resolution is
network-free: on such a state the job is a no-op. -/
def doneRun (reg : Registry) (skipExamples : Bool) :
    Nat → InstallJob → CacheState → Bool
  | 0, _, _ => false
  | fuel + 1, .pkgStr packageId, st =>
    match toPackageObject reg packageId with
    | .error _ => false
    | .ok (pkg, log0) =>
      log0.isEmpty && (lookupEntry st (toDirName pkg)).isSome &&
        doneRun reg skipExamples fuel (.deps pkg) st
  | fuel + 1, .deps pkg, st =>
    match lookupEntry st (toDirName pkg) with
    | none => false
    | some e =>
      e.hasIndex && doneRun reg skipExamples fuel (.list (remapCoreDeps e.deps)) st
  | _ + 1, .list [], _ => true
  | fuel + 1, .list ((d, v) :: rest), st =>
    if skipExamples ∧ strContains d "examples" then
      doneRun reg skipExamples fuel (.list rest) st
    else
      doneRun reg skipExamples fuel (.pkgStr (d ++ "@" ++ v)) st &&
        doneRun reg skipExamples fuel (.list rest) st

/-- The precondition a job needs for idempotent re-runs: a string job
must resolve without a metadata fetch (concrete version), a list job must
carry well-formed dependencies. -/
def jobOk (reg : Registry) : InstallJob → Prop
  | .pkgStr packageId =>
    ∀ pkg log, toPackageObject reg packageId = .ok (pkg, log) → log = []
  | .deps _ => True
  | .list deps => depsOk deps = true

theorem entryLe_refl (e : CacheEntry) : entryLe e e :=
  ⟨rfl, fun h => h⟩

theorem stateLe_refl (st : CacheState) : stateLe st st :=
  fun _ e h => ⟨e, h, entryLe_refl e⟩

theorem stateLe_trans {s1 s2 s3 : CacheState}
    (h12 : stateLe s1 s2) (h23 : stateLe s2 s3) : stateLe s1 s3 := by
  intro dn e h1
  obtain ⟨e2, h2, hd2, hi2⟩ := h12 dn e h1
  obtain ⟨e3, h3, hd3, hi3⟩ := h23 dn e2 h2
  exact ⟨e3, h3, hd3.trans hd2, fun h => hi3 (hi2 h)⟩

theorem lookupEntry_insert_of_lookup {st : CacheState} {dn' : String} {e' : CacheEntry}
    (dn : String) (e : CacheEntry) (h : lookupEntry st dn' = some e') :
    lookupEntry (insertEntry st dn e) dn' = some e' := by
  induction st with
  | nil => rw [lookupEntry] at h; exact absurd h (by simp)
  | cons kv rest ih =>
    rw [lookupEntry] at h
    rw [insertEntry, List.cons_append, lookupEntry]
    split at h
    · rename_i hk
      rw [if_pos hk]
      exact h
    · rename_i hk
      rw [if_neg hk]
      exact ih h

theorem lookupEntry_insert_self {st : CacheState} {dn : String}
    (e : CacheEntry) (h : lookupEntry st dn = none) :
    lookupEntry (insertEntry st dn e) dn = some e := by
  induction st with
  | nil => rw [insertEntry, List.nil_append, lookupEntry, if_pos rfl]
  | cons kv rest ih =>
    rw [lookupEntry] at h
    split at h
    · exact absurd h (by simp)
    · rename_i hk
      rw [insertEntry, List.cons_append, lookupEntry, if_neg hk]
      exact ih h

theorem stateLe_insert (st : CacheState) (dn : String) (e : CacheEntry) :
    stateLe st (insertEntry st dn e) := by
  intro dn' e' h'
  exact ⟨e', lookupEntry_insert_of_lookup dn e h', entryLe_refl e'⟩

theorem lookupEntry_setIndexTrue_self (st : CacheState) (dn : String) :
    lookupEntry (setIndexTrue st dn) dn =
      (lookupEntry st dn).map fun e => { e with hasIndex := true } := by
  induction st with
  | nil => simp [setIndexTrue, lookupEntry]
  | cons kv rest ih =>
    rw [setIndexTrue]
    split
    · rename_i hk
      simp [lookupEntry, hk]
    · rename_i hk
      simp only [lookupEntry, if_neg hk]
      exact ih

theorem lookupEntry_setIndexTrue_other {st : CacheState} {dn dn' : String}
    (h : dn' ≠ dn) :
    lookupEntry (setIndexTrue st dn) dn' = lookupEntry st dn' := by
  induction st with
  | nil => rw [setIndexTrue]
  | cons kv rest ih =>
    rw [setIndexTrue, lookupEntry]
    split
    · rename_i hk
      have hne : ¬kv.1 = dn' := by rw [hk]; exact fun hh => h hh.symm
      rw [lookupEntry]
      simp only [if_neg hne]
    · rw [lookupEntry]
      split
      · rfl
      · exact ih

theorem stateLe_setIndexTrue (st : CacheState) (dn : String) :
    stateLe st (setIndexTrue st dn) := by
  intro dn' e h
  by_cases hdn : dn' = dn
  · subst hdn
    rw [lookupEntry_setIndexTrue_self, h]
    exact ⟨{ e with hasIndex := true }, rfl, rfl, fun _ => rfl⟩
  · rw [lookupEntry_setIndexTrue_other hdn]
    exact ⟨e, h, entryLe_refl e⟩

theorem StateOk_lookup {st : CacheState} {dn : String} {e : CacheEntry}
    (hst : StateOk st = true) (h : lookupEntry st dn = some e) :
    depsOk e.deps = true := by
  induction st with
  | nil => rw [lookupEntry] at h; exact absurd h (by simp)
  | cons kv rest ih =>
    rw [StateOk, List.all_cons, Bool.and_eq_true] at hst
    rw [lookupEntry] at h
    split at h
    · cases h
      exact hst.1
    · exact ih hst.2 h

theorem StateOk_insert {st : CacheState} {e : CacheEntry} (dn : String)
    (hst : StateOk st = true) (he : depsOk e.deps = true) :
    StateOk (insertEntry st dn e) = true := by
  rw [insertEntry, StateOk, List.all_append, Bool.and_eq_true]
  exact ⟨hst, by simp [he]⟩

theorem StateOk_setIndexTrue {st : CacheState} (dn : String)
    (hst : StateOk st = true) : StateOk (setIndexTrue st dn) = true := by
  induction st with
  | nil => rw [setIndexTrue]; exact hst
  | cons kv rest ih =>
    rw [StateOk, List.all_cons, Bool.and_eq_true] at hst
    rw [setIndexTrue]
    split
    · rw [StateOk, List.all_cons, Bool.and_eq_true]
      exact ⟨hst.1, hst.2⟩
    · rw [StateOk, List.all_cons, Bool.and_eq_true]
      exact ⟨hst.1, ih hst.2⟩

theorem depsOk_setStr {l : List (String × String)} {k v : String}
    (hl : depsOk l = true) (hkv : depOk (k, v) = true) :
    depsOk (setStr l k v) = true := by
  induction l with
  | nil => rw [setStr, depsOk, List.all_cons, Bool.and_eq_true]; exact ⟨hkv, rfl⟩
  | cons kv' rest ih =>
    rw [depsOk, List.all_cons, Bool.and_eq_true] at hl
    rw [setStr]
    split
    · rw [depsOk, List.all_cons, Bool.and_eq_true]
      exact ⟨hkv, hl.2⟩
    · rw [depsOk, List.all_cons, Bool.and_eq_true]
      exact ⟨hl.1, ih hl.2⟩

theorem cleanChar_spec {c : Char} (h : cleanChar c = true) :
    isWs c = false ∧ c ≠ '@' ∧ c ≠ '#' := by
  simp only [cleanChar, Bool.and_eq_true, Bool.not_eq_true', bne_iff_ne] at h
  exact ⟨h.1.1, h.1.2, h.2⟩

theorem cleanStr_spec {s : String} (h : cleanStr s = true) :
    s.toList ≠ [] ∧ ∀ c ∈ s.toList, isWs c = false ∧ c ≠ '@' ∧ c ≠ '#' := by
  rw [cleanStr, Bool.and_eq_true, List.all_eq_true] at h
  refine ⟨?_, fun c hc => cleanChar_spec (h.2 c hc)⟩
  intro hnil
  rw [Bool.not_eq_true', ← Bool.not_eq_true, List.isEmpty_iff] at h
  exact absurd hnil (by simpa using h.1)

theorem skipWs_all_not {l : List Char} (h : ∀ c ∈ l, isWs c = false) :
    skipWs l = l := by
  cases l with
  | nil => rfl
  | cons c rest => exact skipWs_cons_not (h c (by simp)) rest

theorem trimWs_all_not {l : List Char} (h : ∀ c ∈ l, isWs c = false) :
    trimWs l = l := by
  rw [trimWs, skipWs_all_not (fun c hc => h c (List.mem_reverse.mp hc)),
    List.reverse_reverse, skipWs_all_not h]

theorem splitOnChar_no_sep (sep : Char) :
    ∀ (l : List Char), (∀ c ∈ l, c ≠ sep) → splitOnChar sep l = [l] := by
  intro l
  induction l with
  | nil => intro _; rfl
  | cons c rest ih =>
    intro h
    rw [splitOnChar, if_neg (h c (by simp)), ih (fun x hx => h x (by simp [hx]))]

theorem splitOnChar_sep_append (sep : Char) (b : List Char) :
    ∀ (a : List Char), (∀ c ∈ a, c ≠ sep) →
      splitOnChar sep (a ++ sep :: b) = a :: splitOnChar sep b := by
  intro a
  induction a with
  | nil => intro _; rw [List.nil_append, splitOnChar, if_pos rfl]
  | cons c rest ih =>
    intro h
    rw [List.cons_append, splitOnChar, if_neg (h c (by simp)),
      ih (fun x hx => h x (by simp [hx]))]

theorem headSplit_no_sep {sep : Char} {l : List Char}
    (h : ∀ c ∈ l, c ≠ sep) : headSplit sep l = l := by
  rw [headSplit, List.takeWhile_eq_self_iff]
  intro x hx
  simp [h x hx]

theorem headSplit_append {sep : Char} (b : List Char) :
    ∀ (a : List Char), (∀ c ∈ a, c ≠ sep) →
      headSplit sep (a ++ sep :: b) = a := by
  intro a
  induction a with
  | nil =>
    intro _
    rw [List.nil_append, headSplit, List.takeWhile_cons]
    simp
  | cons c rest ih =>
    intro h
    rw [List.cons_append, headSplit, List.takeWhile_cons,
      if_pos (by simp [h c (by simp)])]
    have ih' := ih (fun x hx => h x (by simp [hx]))
    rw [headSplit] at ih'
    rw [ih']

theorem toList_clean_append (d v : String) :
    (d ++ "@" ++ v).toList = d.toList ++ '@' :: v.toList := by
  show (d ++ "@" ++ v).data = d.data ++ '@' :: v.data
  rw [String.data_append, String.data_append,
    show ("@" : String).data = ['@'] from rfl, List.append_assoc]
  rfl

/-- A well-formed `name@version` string round-trips through the
identifier parser without touching the registry: the resolved object is
`⟨name, version⟩` and no metadata fetch is logged. -/
theorem toPackageObject_clean (reg : Registry) {d v : String}
    (hd : cleanStr d = true) (hv : cleanStr v = true) (hlat : v ≠ "latest") :
    toPackageObject reg (d ++ "@" ++ v) = .ok (⟨d, v⟩, []) := by
  obtain ⟨hdne, hdc⟩ := cleanStr_spec hd
  obtain ⟨_, hvc⟩ := cleanStr_spec hv
  have hnws : ∀ c ∈ d.toList ++ '@' :: v.toList, isWs c = false := by
    intro c hc
    rcases List.mem_append.mp hc with h1 | h2
    · exact (hdc c h1).1
    · rcases List.mem_cons.mp h2 with h3 | h4
      · rw [h3]; rfl
      · exact (hvc c h4).1
  have htrim : trimWs (d ++ "@" ++ v).toList = d.toList ++ '@' :: v.toList := by
    rw [toList_clean_append]
    exact trimWs_all_not hnws
  have hname : packageNameOf (String.mk (d.toList ++ '@' :: v.toList)) = d := by
    rw [packageNameOf]
    have h1 : headSplit '#' (d.toList ++ '@' :: v.toList) =
        d.toList ++ '@' :: v.toList := by
      refine headSplit_no_sep ?_
      intro c hc
      rcases List.mem_append.mp hc with h1 | h2
      · exact (hdc c h1).2.2
      · rcases List.mem_cons.mp h2 with h3 | h4
        · rw [h3]; decide
        · exact (hvc c h4).2.2
    have h2 : headSplit '@' (d.toList ++ '@' :: v.toList) = d.toList :=
      headSplit_append v.toList d.toList (fun c hc => (hdc c hc).2.1)
    show String.mk (headSplit '@' (headSplit '#'
      (String.mk (d.toList ++ '@' :: v.toList)).toList)) = d
    rw [show (String.mk (d.toList ++ '@' :: v.toList)).toList =
      d.toList ++ '@' :: v.toList from rfl, h1, h2, String.mk_toList]
  have hver : getVersionFromPackageString (String.mk (d.toList ++ '@' :: v.toList)) = v := by
    rw [getVersionFromPackageString]
    have h1 : splitOnChar '#' (d.toList ++ '@' :: v.toList) =
        [d.toList ++ '@' :: v.toList] := by
      refine splitOnChar_no_sep '#' _ ?_
      intro c hc
      rcases List.mem_append.mp hc with h1 | h2
      · exact (hdc c h1).2.2
      · rcases List.mem_cons.mp h2 with h3 | h4
        · rw [h3]; decide
        · exact (hvc c h4).2.2
    have h2 : splitOnChar '@' (d.toList ++ '@' :: v.toList) =
        [d.toList, v.toList] := by
      rw [splitOnChar_sep_append '@' v.toList d.toList (fun c hc => (hdc c hc).2.1),
        splitOnChar_no_sep '@' v.toList (fun c hc => (hvc c hc).2.1)]
    rw [show (String.mk (d.toList ++ '@' :: v.toList)).toList =
      d.toList ++ '@' :: v.toList from rfl, h1, h2]
    exact String.mk_toList v
  rw [toPackageObject.eq_def, htrim]
  cases hdl : d.toList with
  | nil => exact absurd hdl hdne
  | cons c cs =>
    rw [hdl] at hname hver
    rw [List.cons_append] at hname hver ⊢
    dsimp only
    rw [hname, hver, if_neg hlat]

theorem depsOk_remap {deps : List (String × String)}
    (h : depsOk deps = true) : depsOk (remapCoreDeps deps) = true := by
  rw [remapCoreDeps]
  split
  · exact depsOk_setStr h (by decide)
  · exact h

/-- Done-ness only depends on the entries being present with their index
files: it is preserved when the cache grows. -/
theorem doneRun_mono (reg : Registry) (skipExamples : Bool) :
    ∀ (fuel : Nat) (job : InstallJob) (st st' : CacheState),
      stateLe st st' → doneRun reg skipExamples fuel job st = true →
      doneRun reg skipExamples fuel job st' = true := by
  intro fuel
  induction fuel with
  | zero => intro job st st' _ h; rw [doneRun] at h; exact absurd h (by simp)
  | succ fuel ih =>
    intro job st st' hle h
    cases job with
    | pkgStr packageId =>
      rw [doneRun] at h ⊢
      split at h
      · exact absurd h (by simp)
      · rename_i pkg log0 hres
        rw [Bool.and_eq_true, Bool.and_eq_true] at h ⊢
        obtain ⟨⟨hlog, hsome⟩, hdone⟩ := h
        obtain ⟨e, he⟩ := Option.isSome_iff_exists.mp hsome
        obtain ⟨e', he', _⟩ := hle _ _ he
        refine ⟨⟨hlog, ?_⟩, ih _ _ _ hle hdone⟩
        rw [he']
        rfl
    | deps pkg =>
      rw [doneRun] at h ⊢
      split at h
      · exact absurd h (by simp)
      · rename_i e he
        rw [Bool.and_eq_true] at h
        obtain ⟨hidx, hdone⟩ := h
        obtain ⟨e', he', hd', hi'⟩ := hle _ _ he
        rw [he']
        dsimp only
        rw [Bool.and_eq_true]
        refine ⟨hi' hidx, ?_⟩
        rw [hd']
        exact ih _ _ _ hle hdone
    | list deps =>
      cases deps with
      | nil => rw [doneRun]
      | cons dv rest =>
        obtain ⟨d, v⟩ := dv
        rw [doneRun] at h ⊢
        split at h
        · rename_i hskip
          rw [if_pos hskip]
          exact ih _ _ _ hle h
        · rename_i hskip
          rw [if_neg hskip]
          rw [Bool.and_eq_true] at h ⊢
          exact ⟨ih _ _ _ hle h.1, ih _ _ _ hle h.2⟩

/-- On a state where the job is done, the run is a no-op: it succeeds,
changes nothing, and performs no network request. -/
theorem doneRun_run (reg : Registry) (skipExamples : Bool) (cachePath : String) :
    ∀ (fuel : Nat) (job : InstallJob) (st : CacheState),
      doneRun reg skipExamples fuel job st = true →
      installRun reg skipExamples cachePath fuel job st = .ok (st, []) := by
  intro fuel
  induction fuel with
  | zero => intro job st h; rw [doneRun] at h; exact absurd h (by simp)
  | succ fuel ih =>
    intro job st h
    cases job with
    | pkgStr packageId =>
      rw [doneRun] at h
      rw [installRun]
      split at h
      · exact absurd h (by simp)
      · rename_i pkg log0 hres
        rw [Bool.and_eq_true, Bool.and_eq_true] at h
        obtain ⟨⟨hlog, hsome⟩, hdone⟩ := h
        obtain ⟨e, he⟩ := Option.isSome_iff_exists.mp hsome
        rw [he]
        dsimp only
        rw [ih _ _ hdone]
        rw [List.isEmpty_iff] at hlog
        rw [hlog]
        rfl
    | deps pkg =>
      rw [doneRun] at h
      rw [installRun]
      split at h
      · exact absurd h (by simp)
      · rename_i e he
        rw [Bool.and_eq_true] at h
        obtain ⟨hidx, hdone⟩ := h
        rw [if_pos hidx]
        exact ih _ _ hdone
    | list deps =>
      cases deps with
      | nil => rw [installRun]
      | cons dv rest =>
        obtain ⟨d, v⟩ := dv
        rw [doneRun] at h
        rw [installRun]
        split at h
        · rename_i hskip
          rw [if_pos hskip]
          exact ih _ _ h
        · rename_i hskip
          rw [if_neg hskip]
          rw [Bool.and_eq_true] at h
          rw [ih _ _ h.1]
          dsimp only
          rw [ih _ _ h.2]
          rfl

/-- A successful run preserves state wellformedness, only grows the
cache, and leaves a state on which the job is done. -/
theorem installRun_post (reg : Registry) (skipExamples : Bool) (cachePath : String)
    (hreg : RegOk reg) :
    ∀ (fuel : Nat) (job : InstallJob) (st st' : CacheState) (log : List NetEvent),
      installRun reg skipExamples cachePath fuel job st = .ok (st', log) →
      StateOk st = true → jobOk reg job →
      StateOk st' = true ∧ stateLe st st' ∧
        doneRun reg skipExamples fuel job st' = true := by
  intro fuel
  induction fuel with
  | zero => intro job st st' log h _ _; rw [installRun] at h; exact absurd h (by simp)
  | succ fuel ih =>
    intro job st st' log h hst hjob
    cases job with
    | pkgStr packageId =>
      rw [installRun] at h
      split at h
      · exact absurd h (by simp)
      · rename_i pkg log0 hres
        have hlog0 : log0 = [] := hjob pkg log0 hres
        split at h
        · rename_i e he
          split at h
          · exact absurd h (by simp)
          · rename_i st1 log1 hrun
            simp only [Except.ok.injEq, Prod.mk.injEq] at h
            obtain ⟨rfl, rfl⟩ := h
            obtain ⟨hok1, hle1, hdone1⟩ := ih _ _ _ _ hrun hst trivial
            refine ⟨hok1, hle1, ?_⟩
            rw [doneRun, hres]
            dsimp only
            rw [Bool.and_eq_true, Bool.and_eq_true]
            obtain ⟨e', he', _⟩ := hle1 _ _ he
            refine ⟨⟨by rw [hlog0]; rfl, ?_⟩, hdone1⟩
            rw [he']
            rfl
        · rename_i he
          split at h
          · exact absurd h (by simp)
          · rename_i tb htb
            rw [cachePackage, he] at h
            dsimp only at h
            split at h
            · exact absurd h (by simp)
            · rename_i st1 log1 hrun
              simp only [Except.ok.injEq, Prod.mk.injEq] at h
              obtain ⟨rfl, rfl⟩ := h
              have hsnew : StateOk (insertEntry st (toDirName pkg)
                  ⟨tb.deps, true, tb.payload⟩) = true :=
                StateOk_insert _ hst (hreg _ _ _ htb)
              obtain ⟨hok1, hle1, hdone1⟩ := ih _ _ _ _ hrun hsnew trivial
              refine ⟨hok1, stateLe_trans (stateLe_insert st _ _) hle1, ?_⟩
              rw [doneRun, hres]
              dsimp only
              rw [Bool.and_eq_true, Bool.and_eq_true]
              obtain ⟨e', he', _⟩ := hle1 _ _ (lookupEntry_insert_self _ he)
              refine ⟨⟨by rw [hlog0]; rfl, ?_⟩, hdone1⟩
              rw [he']
              rfl
    | deps pkg =>
      rw [installRun] at h
      split at h
      · exact absurd h (by simp)
      · rename_i e he
        have hdeps : depsOk (remapCoreDeps e.deps) = true :=
          depsOk_remap (StateOk_lookup hst he)
        by_cases hidx : e.hasIndex = true
        · rw [if_pos hidx] at h
          obtain ⟨hok1, hle1, hdone1⟩ := ih _ _ _ _ h hst hdeps
          refine ⟨hok1, hle1, ?_⟩
          rw [doneRun]
          obtain ⟨e', he', hd', hi'⟩ := hle1 _ _ he
          rw [he']
          dsimp only
          rw [Bool.and_eq_true]
          refine ⟨hi' hidx, ?_⟩
          rw [hd']
          exact hdone1
        · rw [if_neg hidx] at h
          have hst0 : StateOk (setIndexTrue st (toDirName pkg)) = true :=
            StateOk_setIndexTrue _ hst
          obtain ⟨hok1, hle1, hdone1⟩ := ih _ _ _ _ h hst0 hdeps
          refine ⟨hok1, stateLe_trans (stateLe_setIndexTrue st _) hle1, ?_⟩
          rw [doneRun]
          have he0 : lookupEntry (setIndexTrue st (toDirName pkg)) (toDirName pkg) =
              some { e with hasIndex := true } := by
            rw [lookupEntry_setIndexTrue_self, he]
            rfl
          obtain ⟨e', he', hd', hi'⟩ := hle1 _ _ he0
          rw [he']
          dsimp only
          rw [Bool.and_eq_true]
          refine ⟨hi' rfl, ?_⟩
          rw [hd']
          exact hdone1
    | list deps =>
      cases deps with
      | nil =>
        rw [installRun] at h
        simp only [Except.ok.injEq, Prod.mk.injEq] at h
        obtain ⟨rfl, rfl⟩ := h
        exact ⟨hst, stateLe_refl st, by rw [doneRun]⟩
      | cons dv rest =>
        obtain ⟨d, v⟩ := dv
        rw [installRun] at h
        rw [jobOk, depsOk, List.all_cons, Bool.and_eq_true] at hjob
        obtain ⟨hdv, hrest⟩ := hjob
        split at h
        · rename_i hskip
          obtain ⟨hok1, hle1, hdone1⟩ := ih _ _ _ _ h hst hrest
          refine ⟨hok1, hle1, ?_⟩
          rw [doneRun, if_pos hskip]
          exact hdone1
        · rename_i hskip
          split at h
          · exact absurd h (by simp)
          · rename_i st1 l1 hrun1
            split at h
            · exact absurd h (by simp)
            · rename_i st2 l2 hrun2
              simp only [Except.ok.injEq, Prod.mk.injEq] at h
              obtain ⟨rfl, rfl⟩ := h
              have hdok : jobOk reg (.pkgStr (d ++ "@" ++ v)) := by
                intro pkg log hp
                rw [depOk, Bool.and_eq_true, Bool.and_eq_true, bne_iff_ne] at hdv
                rw [toPackageObject_clean reg hdv.1.1 hdv.1.2 hdv.2] at hp
                simp only [Except.ok.injEq, Prod.mk.injEq] at hp
                exact hp.2.symm
              obtain ⟨hok1, hle1, hdone1⟩ := ih _ _ _ _ hrun1 hst hdok
              obtain ⟨hok2, hle2, hdone2⟩ := ih _ _ _ _ hrun2 hok1 hrest
              refine ⟨hok2, stateLe_trans hle1 hle2, ?_⟩
              rw [doneRun, if_neg hskip, Bool.and_eq_true]
              exact ⟨doneRun_mono reg skipExamples fuel _ st1 st2 hle2 hdone1, hdone2⟩

/-- C1: install is idempotent for a concretely versioned identifier when
the cache and the registry's manifests are well-formed (every declared
dependency a clean `name`/`version` pair with a concrete version, not the
`latest` dist-tag): after a successful `install(X)`, running `install(X)`
again succeeds, leaves the cache state exactly as the first call left it,
and performs no network request at all — in particular none for X or for
any of its already-cached transitive dependencies. -/
theorem C1_install_idempotent (reg : Registry) (skipExamples : Bool)
    (cachePath : String) (fuel : Nat) (packageId : String)
    (st st' : CacheState) (log : List NetEvent) (pkg : PackageIdentifier)
    (hreg : RegOk reg) (hst : StateOk st = true)
    (hres : toPackageObject reg packageId = .ok (pkg, []))
    (h1 : installGo reg skipExamples cachePath fuel packageId st = .ok (st', log)) :
    installGo reg skipExamples cachePath fuel packageId st' = .ok (st', []) := by
  rw [installGo] at h1 ⊢
  have hjob : jobOk reg (.pkgStr packageId) := by
    intro pkg' log' hp
    rw [hres] at hp
    simp only [Except.ok.injEq, Prod.mk.injEq] at hp
    exact hp.2.symm
  obtain ⟨_, _, hdone⟩ :=
    installRun_post reg skipExamples cachePath hreg fuel _ st st' log h1 hst hjob
  exact doneRun_run reg skipExamples cachePath fuel _ st' hdone

theorem C1_install_idempotent_witness :
    installGo
      ⟨fun _ => none,
       fun id ver =>
         if id = "pkg.a" ∧ ver = "1.0.0" then some ⟨[("pkg.b", "2.0.0")], [("f", "x")]⟩
         else if id = "pkg.b" ∧ ver = "2.0.0" then some ⟨[], []⟩
         else none⟩
      false "/c" 8 "pkg.a@1.0.0"
      [("pkg.a#1.0.0", ⟨[("pkg.b", "2.0.0")], true, [("f", "x")]⟩),
       ("pkg.b#2.0.0", ⟨[], true, []⟩)] =
      .ok ([("pkg.a#1.0.0", ⟨[("pkg.b", "2.0.0")], true, [("f", "x")]⟩),
            ("pkg.b#2.0.0", ⟨[], true, []⟩)], []) :=
  C1_install_idempotent
    ⟨fun _ => none,
     fun id ver =>
       if id = "pkg.a" ∧ ver = "1.0.0" then some ⟨[("pkg.b", "2.0.0")], [("f", "x")]⟩
       else if id = "pkg.b" ∧ ver = "2.0.0" then some ⟨[], []⟩
       else none⟩
    false "/c" 8 "pkg.a@1.0.0" []
    [("pkg.a#1.0.0", ⟨[("pkg.b", "2.0.0")], true, [("f", "x")]⟩),
     ("pkg.b#2.0.0", ⟨[], true, []⟩)]
    [.metadata "pkg.a", .download "pkg.a" "1.0.0",
     .metadata "pkg.b", .download "pkg.b" "2.0.0"]
    ⟨"pkg.a", "1.0.0"⟩
    (by
      intro id ver tb h
      dsimp only at h
      split at h
      · injection h with h'
        subst h'
        decide
      · split at h
        · injection h with h'
          subst h'
          decide
        · exact absurd h (by simp))
    rfl rfl rfl

/-- C1 counterexample: with a manifest that declares a dependency through
the `latest` dist-tag, the second `install` of a concretely versioned
package leaves the cache unchanged but still performs a metadata fetch
for the dependency `pkg.b`, although `pkg.b` is already cached with its
index — the dist-tag is re-resolved before the `isInstalled` check on
every call, so the second call is not free of network requests for
already-cached transitive dependencies. -/
theorem C1_counterexample :
    installGo
      ⟨fun id => if id = "pkg.b" then some "2.0.0" else none,
       fun id ver =>
         if id = "pkg.a" ∧ ver = "1.0.0" then some ⟨[("pkg.b", "latest")], []⟩
         else if id = "pkg.b" ∧ ver = "2.0.0" then some ⟨[], []⟩
         else none⟩
      false "/c" 8 "pkg.a@1.0.0" [] =
      .ok ([("pkg.a#1.0.0", ⟨[("pkg.b", "latest")], true, []⟩),
            ("pkg.b#2.0.0", ⟨[], true, []⟩)],
           [.metadata "pkg.a", .download "pkg.a" "1.0.0",
            .metadata "pkg.b", .metadata "pkg.b", .download "pkg.b" "2.0.0"]) ∧
    installGo
      ⟨fun id => if id = "pkg.b" then some "2.0.0" else none,
       fun id ver =>
         if id = "pkg.a" ∧ ver = "1.0.0" then some ⟨[("pkg.b", "latest")], []⟩
         else if id = "pkg.b" ∧ ver = "2.0.0" then some ⟨[], []⟩
         else none⟩
      false "/c" 8 "pkg.a@1.0.0"
      [("pkg.a#1.0.0", ⟨[("pkg.b", "latest")], true, []⟩),
       ("pkg.b#2.0.0", ⟨[], true, []⟩)] =
      .ok ([("pkg.a#1.0.0", ⟨[("pkg.b", "latest")], true, []⟩),
            ("pkg.b#2.0.0", ⟨[], true, []⟩)],
           [.metadata "pkg.b"]) ∧
    lookupEntry
      [("pkg.a#1.0.0", ⟨[("pkg.b", "latest")], true, []⟩),
       ("pkg.b#2.0.0", ⟨[], true, []⟩)] "pkg.b#2.0.0" =
      some ⟨[], true, []⟩ :=
  ⟨rfl, rfl, rfl⟩

end FPI
